import Mathlib

/-!
# Verification of the UTM-builder core (`utm_builder.py`)

A shallow embedding of the two core functions of the repository,
`normalize_pair` and `build_utm_url`, together with the fragment of
Python 3.11's `urllib.parse` standard library that they call
(`urlparse`, `parse_qsl`, `urlencode`, `quote_plus`, `unquote`,
`urlunparse`).  All definitions are executable and translated from the
Python source; theorems at the end settle the claims of the
specification.

Modelling notes, fixed once here:

* Python `str` is modelled by Lean `String` (a list of unicode scalar
  values, as in CPython).
* `str.strip()` is modelled with the ASCII whitespace characters
  (space, `\t`, `\n`, `\r`, `\x0b`, `\x0c`); the exotic non-ASCII
  unicode whitespace stripped by CPython is not modelled.
* `str.lower()` is modelled as ASCII lowercasing; non-ASCII case
  folding is not modelled.
* `urllib.parse.urlparse` additionally splits a `;params` suffix off
  the path and `urlunparse` re-joins it with `;` unchanged; the program
  never reads `path`/`params`, so the model keeps the params inside the
  `path` component, which is observationally equivalent.
* `_checknetloc` (an NFKC-normalization check that can only reject
  netlocs containing non-ASCII characters) is not modelled; every
  netloc passes.  The `"Invalid IPv6 URL"` bracket check *is* modelled.
* `bytes.decode('utf-8', errors='replace')` is modelled by a total
  UTF-8 decoder; on malformed byte sequences the exact number of
  U+FFFD replacement characters may differ from CPython's
  maximal-subpart policy (valid sequences decode identically).
* A Python function that raises is modelled with `Except`.
-/

/-! ## Python string primitives -/

/-- ASCII whitespace, as recognised by `str.strip()` / `str.isspace()`. -/
def pyIsSpace (c : Char) : Prop :=
  c = ' ' ∨ c = '\t' ∨ c = '\n' ∨ c = '\r' ∨ c.toNat = 0x0b ∨ c.toNat = 0x0c

instance (c : Char) : Decidable (pyIsSpace c) := by
  unfold pyIsSpace; infer_instance

/-- `str.strip()` on a list of characters. -/
def pyStripL (l : List Char) : List Char :=
  ((l.dropWhile (fun c => decide (pyIsSpace c))).reverse.dropWhile
    (fun c => decide (pyIsSpace c))).reverse

/-- `str.strip()`. -/
def pyStrip (s : String) : String := ⟨pyStripL s.data⟩

/-- `str.lower()` on one character (ASCII case folding). -/
def pyLowerChar (c : Char) : Char :=
  if 65 ≤ c.toNat ∧ c.toNat ≤ 90 then Char.ofNat (c.toNat + 32) else c

/-- `str.lower()` on a list of characters. -/
def pyLowerL (l : List Char) : List Char := l.map pyLowerChar

/-- `str.replace(a, b)` for one-character `a`, `b`. -/
def pyReplaceCharL (a b : Char) (l : List Char) : List Char :=
  l.map (fun c => if c = a then b else c)

/-- `needle in haystack` (substring test) on lists of characters. -/
def containsSeq (pat : List Char) : List Char → Bool
  | [] => decide (pat = [])
  | c :: rest => pat.isPrefixOf (c :: rest) || containsSeq pat rest

/-- `"://" in s`, the scheme-separator test of `build_utm_url`. -/
def hasSchemeSep (s : String) : Bool := containsSeq "://".data s.data

/-- `s.split(sep, 1)`: split at the first occurrence of `sep`, if any. -/
def splitFirst (sep : Char) : List Char → Option (List Char × List Char)
  | [] => none
  | c :: rest =>
    if c = sep then some ([], rest)
    else (splitFirst sep rest).map (fun p => (c :: p.1, p.2))

/-- `s.split(sep)` for a one-character separator (Python semantics:
`"".split(sep) == [""]`, empty segments kept). -/
def splitAllL (sep : Char) : List Char → List (List Char)
  | [] => [[]]
  | c :: rest =>
    match splitAllL sep rest with
    | [] => [[]]
    | g :: gs => if c = sep then [] :: g :: gs else (c :: g) :: gs

/-- `sep.join(l)` for a one-character separator. -/
def joinSepL (sep : Char) : List (List Char) → List Char
  | [] => []
  | [x] => x
  | x :: y :: rest => x ++ sep :: joinSepL sep (y :: rest)

/-! ## The Normalizer (`normalize_pair`, source lines 55-68) -/

/-- The `space_mode` option of `normalize_pair`. -/
inductive SpaceMode where
  | underscore
  | dash
  | keep
deriving DecidableEq, Repr

/-- The inner `transform` closure of `normalize_pair` on a present
string: trim, then optionally lowercase, then apply the space mode. -/
def transformStr (force_lower : Bool) (space_mode : SpaceMode) (s : String) :
    String :=
  let s := pyStrip s
  let s := if force_lower then ⟨pyLowerL s.data⟩ else s
  match space_mode with
  | .underscore => ⟨pyReplaceCharL ' ' '_' s.data⟩
  | .dash => ⟨pyReplaceCharL ' ' '-' s.data⟩
  | .keep => s

/-- The `transform` closure of `normalize_pair`: `None` propagates. -/
def pyTransform (force_lower : Bool) (space_mode : SpaceMode) :
    Option String → Option String
  | none => none
  | some s => some (transformStr force_lower space_mode s)

/-- `normalize_pair(k, v, force_lower, space_mode)` (source lines 55-68). -/
def normalize_pair (k v : Option String) (force_lower : Bool)
    (space_mode : SpaceMode) : Option String × Option String :=
  (pyTransform force_lower space_mode k, pyTransform force_lower space_mode v)

/-! ## Percent-encoding (`urllib.parse.quote` / `unquote` machinery)

CPython encodes a `str` to UTF-8 bytes, percent-encodes byte-wise
(`quote_from_bytes`), and decodes percent-escapes back through
`unquote_to_bytes` + `bytes.decode('utf-8', 'replace')`. -/

/-- The UTF-8 encoding of one unicode scalar value, as a list of byte
values (CPython `str.encode('utf-8')`, character-wise). -/
def utf8Bytes (c : Char) : List Nat :=
  let v := c.toNat
  if v < 0x80 then [v]
  else if v < 0x800 then [0xC0 + v / 64, 0x80 + v % 64]
  else if v < 0x10000 then
    [0xE0 + v / 4096, 0x80 + (v / 64) % 64, 0x80 + v % 64]
  else
    [0xF0 + v / 0x40000, 0x80 + (v / 4096) % 64, 0x80 + (v / 64) % 64,
      0x80 + v % 64]

/-- A UTF-8 continuation byte. -/
def utf8Cont (b : Nat) : Prop := 0x80 ≤ b ∧ b ≤ 0xBF

instance (b : Nat) : Decidable (utf8Cont b) := by unfold utf8Cont; infer_instance

/-- U+FFFD, the replacement character of `errors='replace'`. -/
def replChar : Char := Char.ofNat 0xFFFD

/-- One step of UTF-8 decoding: given a lead byte `b` and the
remaining bytes, return the decoded scalar value and the bytes after
the sequence when `b` begins a well-formed sequence (including the
E0/ED/F0/F4 overlong/surrogate restrictions), else `none`. -/
def utf8SeqVal (b : Nat) (bs : List Nat) : Option (Nat × List Nat) :=
  if b < 0x80 then some (b, bs)
  else if 0xC2 ≤ b ∧ b ≤ 0xDF then
    match bs with
    | b1 :: bs1 =>
      if utf8Cont b1 then some ((b - 0xC0) * 64 + (b1 - 0x80), bs1) else none
    | [] => none
  else if 0xE0 ≤ b ∧ b ≤ 0xEF then
    match bs with
    | b1 :: b2 :: bs2 =>
      if (utf8Cont b1 ∧ (b = 0xE0 → 0xA0 ≤ b1) ∧ (b = 0xED → b1 ≤ 0x9F)) ∧
          utf8Cont b2 then
        some ((b - 0xE0) * 4096 + (b1 - 0x80) * 64 + (b2 - 0x80), bs2)
      else none
    | _ => none
  else if 0xF0 ≤ b ∧ b ≤ 0xF4 then
    match bs with
    | b1 :: b2 :: b3 :: bs3 =>
      if (utf8Cont b1 ∧ (b = 0xF0 → 0x90 ≤ b1) ∧ (b = 0xF4 → b1 ≤ 0x8F)) ∧
          utf8Cont b2 ∧ utf8Cont b3 then
        some ((b - 0xF0) * 0x40000 + (b1 - 0x80) * 4096 + (b2 - 0x80) * 64 +
          (b3 - 0x80), bs3)
      else none
    | _ => none
  else none

/-- The decoding loop, structurally recursive on a fuel bound: a
well-formed sequence yields its scalar value, otherwise one byte is
consumed and U+FFFD emitted. -/
def utf8DecGo : Nat → List Nat → List Char
  | _, [] => []
  | 0, _ :: _ => []
  | fuel + 1, b :: bs =>
    match utf8SeqVal b bs with
    | some (v, rest) => Char.ofNat v :: utf8DecGo fuel rest
    | none => replChar :: utf8DecGo fuel bs

/-- Total UTF-8 decoder modelling `bytes.decode('utf-8', 'replace')`:
well-formed sequences decode to their scalar value, ill-formed bytes
become U+FFFD.  (On ill-formed input the number of U+FFFD emitted may
differ from CPython's maximal-subpart policy; well-formed input
decodes identically.  The fuel argument is only a termination bound:
every step consumes at least one byte.) -/
def utf8DecodeReplace (bs : List Nat) : List Char := utf8DecGo bs.length bs

/-- A hexadecimal digit, upper- or lowercase (keys of `_hextobyte`). -/
def isHexDigitChar (c : Char) : Prop :=
  (48 ≤ c.toNat ∧ c.toNat ≤ 57) ∨ (65 ≤ c.toNat ∧ c.toNat ≤ 70) ∨
    (97 ≤ c.toNat ∧ c.toNat ≤ 102)

instance (c : Char) : Decidable (isHexDigitChar c) := by
  unfold isHexDigitChar; infer_instance

/-- Numeric value of a hexadecimal digit. -/
def hexVal (c : Char) : Nat :=
  if 48 ≤ c.toNat ∧ c.toNat ≤ 57 then c.toNat - 48
  else if 65 ≤ c.toNat ∧ c.toNat ≤ 70 then c.toNat - 55
  else c.toNat - 87

/-- Uppercase hex digit of a value `< 16` (`'%{:02X}'.format`). -/
def hexDigit (n : Nat) : Char :=
  if n < 10 then Char.ofNat (48 + n) else Char.ofNat (55 + n)

/-- `'%{:02X}'.format(b)`: the three-character escape of one byte. -/
def pctEscape (b : Nat) : List Char := ['%', hexDigit (b / 16), hexDigit (b % 16)]

/-- One step of `unquote_to_bytes` on an ASCII chunk: a `%` followed
by two hex digits yields that byte, a `%` not followed by two hex
digits stays a literal `%` byte, any other character contributes its
own (ASCII) code.  Equivalent to CPython's split-on-`%` loop over
`_hextobyte`. -/
def pctStep (c : Char) (rest : List Char) : Nat × List Char :=
  if c = '%' then
    match rest with
    | h1 :: h2 :: rest2 =>
      if isHexDigitChar h1 ∧ isHexDigitChar h2 then
        (hexVal h1 * 16 + hexVal h2, rest2)
      else (0x25, rest)
    | _ => (0x25, rest)
  else (c.toNat, rest)

/-- The percent-decoding loop, structurally recursive on a fuel bound
(each step consumes at least one character). -/
def pctGo : Nat → List Char → List Nat
  | _, [] => []
  | 0, _ :: _ => []
  | fuel + 1, c :: rest => (pctStep c rest).1 :: pctGo fuel (pctStep c rest).2

/-- `unquote_to_bytes` on an ASCII chunk. -/
def pctDecodeBytes (l : List Char) : List Nat := pctGo l.length l

/-- `unquote(string, 'utf-8', 'replace')` body: maximal ASCII runs are
percent-decoded to bytes and UTF-8-decoded (`_asciire.split` +
`unquote_to_bytes(...).decode('utf-8', 'replace')`); non-ASCII
characters pass through unchanged.  `acc` is the ASCII run collected so
far. -/
def unquoteGo (acc : List Char) : List Char → List Char
  | [] => utf8DecodeReplace (pctDecodeBytes acc)
  | c :: rest =>
    if c.toNat < 0x80 then unquoteGo (acc ++ [c]) rest
    else utf8DecodeReplace (pctDecodeBytes acc) ++ c :: unquoteGo [] rest

/-- `unquote(string, 'utf-8', 'replace')` on a list of characters
(the `if '%' not in string: return string` fast path included). -/
def unquoteL (l : List Char) : List Char :=
  if '%' ∈ l then unquoteGo [] l else l

/-- `str.replace('+', ' ')`. -/
def plusToSpace (l : List Char) : List Char := pyReplaceCharL '+' ' ' l

/-- `unquote_plus(s)`: replace `+` by space, then `unquote`. -/
def unquote_plus (s : String) : String := ⟨unquoteL (plusToSpace s.data)⟩

/-- `_ALWAYS_SAFE`: ASCII alphanumerics and `_.-~`. -/
def alwaysSafe (b : Nat) : Prop :=
  (65 ≤ b ∧ b ≤ 90) ∨ (97 ≤ b ∧ b ≤ 122) ∨ (48 ≤ b ∧ b ≤ 57) ∨
    b = 95 ∨ b = 46 ∨ b = 45 ∨ b = 126

instance (b : Nat) : Decidable (alwaysSafe b) := by unfold alwaysSafe; infer_instance

/-- The `_Quoter` table: a byte maps to itself when safe, otherwise to
its `%XX` escape.  `safe` is the extra safe set (ASCII characters). -/
def quoteByte (safe : List Char) (b : Nat) : List Char :=
  if alwaysSafe b ∨ (b < 128 ∧ Char.ofNat b ∈ safe) then [Char.ofNat b]
  else pctEscape b

/-- `quote(s, safe)` for a `str` argument: UTF-8 encode, then quote
byte-wise (`quote_from_bytes`). -/
def pyQuote (s : String) (safe : List Char) : String :=
  ⟨(s.data.flatMap utf8Bytes).flatMap (quoteByte safe)⟩

/-- `quote_plus(s)` (with `safe=''`): if `s` has no space, plain
`quote`; otherwise quote with space safe and turn the spaces into `+`. -/
def quote_plus (s : String) : String :=
  if ' ' ∈ s.data then ⟨pyReplaceCharL ' ' '+' (pyQuote s [' ']).data⟩
  else pyQuote s []

/-! ## Query strings (`parse_qsl`, `urlencode`) -/

/-- An insertion-ordered Python `dict[str, str]` as an association list. -/
abbrev PyDict := List (String × String)

/-- `parse_qsl(qs, keep_blank_values=True)` — the only way the program
calls it — with the defaults `strict_parsing=False`, `separator='&'`:
split on `&`, drop empty segments, split each at the first `=` (a
segment without `=` becomes `(seg, '')`), then `+`-decode and unquote
name and value. -/
def parse_qsl (qs : String) : List (String × String) :=
  if qs = "" then []
  else
    (splitAllL '&' qs.data).filterMap (fun seg =>
      if seg = [] then none
      else
        let nv := match splitFirst '=' seg with
          | some p => p
          | none => (seg, [])
        some (⟨unquoteL (plusToSpace nv.1)⟩, ⟨unquoteL (plusToSpace nv.2)⟩))

/-- `urlencode(d, doseq=True, quote_via=quote_plus)` on a `str`-valued
dict: `'&'.join(quote_plus(k) + '=' + quote_plus(v) for k, v in d)`. -/
def urlencode (d : PyDict) : String :=
  ⟨joinSepL '&' (d.map (fun kv => (quote_plus kv.1).data ++ '=' :: (quote_plus kv.2).data))⟩

/-! ## Python dict operations (insertion-ordered) -/

/-- `k in d`. -/
def dictContains (d : PyDict) (k : String) : Bool := d.any (fun p => p.1 = k)

/-- `d[k] = v`: overwrite in place if the key exists (keeping its
position), else append. -/
def dictInsert (d : PyDict) (k v : String) : PyDict :=
  if dictContains d k then d.map (fun p => if p.1 = k then (k, v) else p)
  else d ++ [(k, v)]

/-- `d.update(u)` (also the `for k, v in ...: d[k] = v` loop pattern). -/
def dictUpdate (d u : PyDict) : PyDict :=
  u.foldl (fun a p => dictInsert a p.1 p.2) d

/-! ## URL parsing (`urlsplit` / `urlunsplit`, Python 3.11)

`build_utm_url` uses `urlparse`/`urlunparse`; those are `urlsplit`/
`urlunsplit` plus the `;params` path split, which the header comment
explains is kept inside `path` here. -/

/-- The components of a split URL (`SplitResult`; `path` includes any
`;params` suffix, see the header). -/
structure SplitResult where
  scheme : String
  netloc : String
  path : String
  query : String
  fragment : String
deriving DecidableEq, Repr

/-- `scheme_chars`: ASCII letters, digits, and `+-.`. -/
def isSchemeChar (c : Char) : Prop :=
  (65 ≤ c.toNat ∧ c.toNat ≤ 90) ∨ (97 ≤ c.toNat ∧ c.toNat ≤ 122) ∨
    (48 ≤ c.toNat ∧ c.toNat ≤ 57) ∨ c.toNat = 43 ∨ c.toNat = 45 ∨ c.toNat = 46

instance (c : Char) : Decidable (isSchemeChar c) := by
  unfold isSchemeChar; infer_instance

/-- `url[0].isascii() and url[0].isalpha()` for the scheme head. -/
def isAsciiAlpha (c : Char) : Prop :=
  (65 ≤ c.toNat ∧ c.toNat ≤ 90) ∨ (97 ≤ c.toNat ∧ c.toNat ≤ 122)

instance (c : Char) : Decidable (isAsciiAlpha c) := by
  unfold isAsciiAlpha; infer_instance

/-- A netloc delimiter (`_splitnetloc` stops at `/`, `?`, `#`). -/
def isNetlocDelim (c : Char) : Prop := c = '/' ∨ c = '?' ∨ c = '#'

instance (c : Char) : Decidable (isNetlocDelim c) := by
  unfold isNetlocDelim; infer_instance

/-- `_UNSAFE_URL_BYTES_TO_REMOVE`: tab, CR, LF are deleted everywhere. -/
def isUnsafeUrlByte (c : Char) : Prop := c = '\t' ∨ c = '\r' ∨ c = '\n'

instance (c : Char) : Decidable (isUnsafeUrlByte c) := by
  unfold isUnsafeUrlByte; infer_instance

/-- The scheme-detection step of `urlsplit`: at the first `:`, if the
text before it is non-empty, starts with an ASCII letter and consists
of `scheme_chars`, it is the (lowercased) scheme; otherwise the url is
left untouched. -/
def splitScheme (l : List Char) : List Char × List Char :=
  match splitFirst ':' l with
  | some (pre, post) =>
    if pre ≠ [] ∧ (∀ c ∈ pre.take 1, isAsciiAlpha c) ∧ (∀ c ∈ pre, isSchemeChar c)
    then (pyLowerL pre, post)
    else ([], l)
  | none => ([], l)

/-- `_splitnetloc` step of `urlsplit`: if the url starts with `//`,
the netloc runs to the first `/`, `?` or `#`; else it is empty. -/
def splitNetloc (l : List Char) : List Char × List Char :=
  if l.take 2 = ['/', '/'] then
    ((l.drop 2).takeWhile (fun c => !decide (isNetlocDelim c)),
      (l.drop 2).dropWhile (fun c => !decide (isNetlocDelim c)))
  else ([], l)

/-- The fragment split of `urlsplit` (`url.split('#', 1)` when `#`
occurs). -/
def splitFrag (l : List Char) : List Char × List Char :=
  match splitFirst '#' l with
  | some p => p
  | none => (l, [])

/-- The query split of `urlsplit` (`url.split('?', 1)` when `?`
occurs). -/
def splitQuery (l : List Char) : List Char × List Char :=
  match splitFirst '?' l with
  | some p => p
  | none => (l, [])

/-- `urlsplit(url)` (Python 3.11.6: no leading/trailing strip); raises
`ValueError("Invalid IPv6 URL")` on unbalanced brackets in the netloc,
modelled with `Except`. -/
def urlsplit (url : String) : Except String SplitResult :=
  let l := url.data.filter (fun c => !decide (isUnsafeUrlByte c))
  let sl := splitScheme l
  let nl := splitNetloc sl.2
  if ('[' ∈ nl.1 ∧ ']' ∉ nl.1) ∨ (']' ∈ nl.1 ∧ '[' ∉ nl.1) then
    .error "Invalid IPv6 URL"
  else
    let fl := splitFrag nl.2
    let ql := splitQuery fl.1
    .ok ⟨⟨sl.1⟩, ⟨nl.1⟩, ⟨ql.1⟩, ⟨ql.2⟩, ⟨fl.2⟩⟩

/-- `uses_netloc` (the entries of the stdlib list; only consulted by
`urlunsplit` when the netloc is empty). -/
def uses_netloc : List String :=
  ["", "ftp", "http", "gopher", "nntp", "telnet", "imap", "wais", "file",
    "mms", "https", "shttp", "snews", "prospero", "rtsp", "rtspu", "rsync",
    "svn", "svn+ssh", "sftp", "nfs", "git", "git+ssh", "ws", "wss"]

/-- `urlunsplit(components)`. -/
def urlunsplit (r : SplitResult) : String :=
  let url :=
    if r.netloc ≠ "" ∨ (r.scheme ≠ "" ∧ r.scheme ∈ uses_netloc ∧
        r.path.data.take 2 ≠ ['/', '/']) then
      let p := if r.path ≠ "" ∧ r.path.data.take 1 ≠ ['/'] then "/" ++ r.path
        else r.path
      "//" ++ r.netloc ++ p
    else r.path
  let url := if r.scheme ≠ "" then r.scheme ++ ":" ++ url else url
  let url := if r.query ≠ "" then url ++ "?" ++ r.query else url
  if r.fragment ≠ "" then url ++ "#" ++ r.fragment else url

/-! ## The URL Builder (`build_utm_url`, source lines 70-100) -/

/-- The two error conditions of `build_utm_url` (both `ValueError` in
the source; §4.2/§7 of the spec names them like this).  A lower-level
parse failure (`Invalid IPv6 URL`) also surfaces as
`InvalidBaseURLError`, per §7. -/
inductive UtmError where
  | EmptyBaseURLError
  | InvalidBaseURLError
deriving DecidableEq, Repr

instance {ε α : Type} [DecidableEq ε] [DecidableEq α] :
    DecidableEq (Except ε α) := fun
  | .error e, .error f =>
    if h : e = f then .isTrue (by rw [h]) else .isFalse (by simp [h])
  | .error _, .ok _ => .isFalse (by simp)
  | .ok _, .error _ => .isFalse (by simp)
  | .ok a, .ok b =>
    if h : a = b then .isTrue (by rw [h]) else .isFalse (by simp [h])

/-- Scheme inference: `base_url if "://" in base_url else "https://" +
base_url` (source line 73). -/
def inferScheme (base_url : String) : String :=
  if hasSchemeSep base_url then base_url else "https://" ++ base_url

/-- The `existing` dict (source lines 77-80): the parsed query when
`merge_existing` is set and a query is present, else empty. -/
def existingParams (merge_existing : Bool) (query : String) : PyDict :=
  if merge_existing ∧ query ≠ "" then
    (parse_qsl query).foldl (fun a p => dictInsert a p.1 p.2) []
  else []

/-- One iteration of the `utm`-building loop (source lines 84-91):
skip falsy values, normalize, skip blank normalized keys/values, and
insert unless the key exists in `existing` and `override_existing` is
unset. -/
def utmStep (force_lower : Bool) (space_mode : SpaceMode)
    (override_existing : Bool) (existing : PyDict) (u : PyDict)
    (kv : String × String) : PyDict :=
  if kv.2 = "" then u
  else
    match normalize_pair (some kv.1) (some kv.2) force_lower space_mode with
    | (some nk, some nv) =>
      if nk = "" ∨ nv = "" then u
      else if override_existing ∨ ¬ dictContains existing nk then
        dictInsert u nk nv
      else u
    | _ => u

/-- The `utm` dict (source lines 83-91). -/
def utmParams (pairs : List (String × String)) (force_lower : Bool)
    (space_mode : SpaceMode) (override_existing : Bool)
    (existing : PyDict) : PyDict :=
  pairs.foldl (utmStep force_lower space_mode override_existing existing) []

/-- The merged dict `final = existing.copy(); final.update(utm)`
(source lines 94-95). -/
def finalParams (pairs : List (String × String)) (force_lower : Bool)
    (space_mode : SpaceMode) (merge_existing override_existing : Bool)
    (query : String) : PyDict :=
  let existing := existingParams merge_existing query
  dictUpdate existing
    (utmParams pairs force_lower space_mode override_existing existing)

/-- `build_utm_url` after scheme inference: parse, validate the netloc,
merge, re-serialize (source lines 73-100). -/
def buildCore (url : String) (pairs : List (String × String))
    (force_lower : Bool) (space_mode : SpaceMode)
    (merge_existing override_existing : Bool) : Except UtmError String :=
  match urlsplit url with
  | .error _ => .error .InvalidBaseURLError
  | .ok parsed =>
    if parsed.netloc = "" then .error .InvalidBaseURLError
    else
      let final := finalParams pairs force_lower space_mode merge_existing
        override_existing parsed.query
      .ok (urlunsplit { parsed with query := urlencode final })

/-- `build_utm_url(base_url, pairs, force_lower=..., space_mode=...,
merge_existing=..., override_existing=...)` (source lines 70-100). -/
def build_utm_url (base_url : String) (pairs : List (String × String))
    (force_lower : Bool) (space_mode : SpaceMode)
    (merge_existing override_existing : Bool) : Except UtmError String :=
  if base_url = "" then .error .EmptyBaseURLError
  else buildCore (inferScheme base_url) pairs force_lower space_mode
    merge_existing override_existing

/-- Character-wise view of `quote_plus`: a safe character stays, a
space becomes `+`, anything else is the percent-escape of its UTF-8
bytes.  (Proved equal to `quote_plus` below.) -/
def qpChar (c : Char) : List Char :=
  if alwaysSafe c.toNat then [c]
  else if c = ' ' then ['+']
  else (utf8Bytes c).flatMap pctEscape

/-! # Lemmas -/

/-! ## UTF-8 roundtrip -/

theorem toNat_ofNat_valid {n : Nat} (h : n.isValidChar) :
    (Char.ofNat n).toNat = n := by
  rw [Char.ofNat, dif_pos h]; rfl


theorem utf8SeqVal_of_char (c : Char) :
    ∃ b tail, utf8Bytes c = b :: tail ∧
      ∀ rest, utf8SeqVal b (tail ++ rest) = some (c.toNat, rest) := by
  have hv : c.toNat < 0xd800 ∨ (0xdfff < c.toNat ∧ c.toNat < 0x110000) := c.valid
  unfold utf8Bytes
  by_cases h1 : c.toNat < 0x80
  · refine ⟨c.toNat, [], by rw [if_pos h1], fun rest => ?_⟩
    unfold utf8SeqVal
    rw [if_pos h1]
    simp
  · by_cases h2 : c.toNat < 0x800
    · refine ⟨_, _, by rw [if_neg h1, if_pos h2], fun rest => ?_⟩
      unfold utf8SeqVal
      rw [if_neg (by omega), if_pos (by constructor <;> omega)]
      simp only [List.cons_append]
      rw [if_pos (show utf8Cont _ from ⟨by omega, by omega⟩)]
      have hval : (0xC0 + c.toNat / 64 - 0xC0) * 64 + (0x80 + c.toNat % 64 - 0x80)
          = c.toNat := by omega
      rw [hval]
      simp
    · by_cases h3 : c.toNat < 0x10000
      · refine ⟨_, _, by rw [if_neg h1, if_neg h2, if_pos h3], fun rest => ?_⟩
        unfold utf8SeqVal
        rw [if_neg (by omega), if_neg (by omega), if_pos (by constructor <;> omega)]
        simp only [List.cons_append]
        rw [if_pos (show (utf8Cont _ ∧ _ ∧ _) ∧ utf8Cont _ from
          ⟨⟨⟨by omega, by omega⟩, by omega, by omega⟩, by omega, by omega⟩)]
        have hval : (0xE0 + c.toNat / 4096 - 0xE0) * 4096 +
            (0x80 + c.toNat / 64 % 64 - 0x80) * 64 + (0x80 + c.toNat % 64 - 0x80)
            = c.toNat := by omega
        rw [hval]
        simp
      · refine ⟨_, _, by rw [if_neg h1, if_neg h2, if_neg h3], fun rest => ?_⟩
        unfold utf8SeqVal
        rw [if_neg (by omega), if_neg (by omega), if_neg (by omega),
          if_pos (by constructor <;> omega)]
        simp only [List.cons_append]
        rw [if_pos (show (utf8Cont _ ∧ _ ∧ _) ∧ utf8Cont _ ∧ utf8Cont _ from
          ⟨⟨⟨by omega, by omega⟩, by omega, by omega⟩, ⟨by omega, by omega⟩,
            by omega, by omega⟩)]
        have hval : (0xF0 + c.toNat / 0x40000 - 0xF0) * 0x40000 +
            (0x80 + c.toNat / 4096 % 64 - 0x80) * 4096 +
            (0x80 + c.toNat / 64 % 64 - 0x80) * 64 + (0x80 + c.toNat % 64 - 0x80)
            = c.toNat := by omega
        rw [hval]
        simp

theorem utf8Bytes_length_pos (c : Char) : 0 < (utf8Bytes c).length := by
  unfold utf8Bytes
  dsimp only
  repeat' split
  all_goals simp

theorem utf8DecGo_flatMap (cs : List Char) (fuel : Nat)
    (h : (cs.flatMap utf8Bytes).length ≤ fuel) :
    utf8DecGo fuel (cs.flatMap utf8Bytes) = cs := by
  induction cs generalizing fuel with
  | nil => cases fuel <;> rfl
  | cons c rest ih =>
    obtain ⟨b, tail, hb, hseq⟩ := utf8SeqVal_of_char c
    have hlen : 0 < (utf8Bytes c).length := utf8Bytes_length_pos c
    rw [List.flatMap_cons] at h ⊢
    rw [hb, List.cons_append]
    rw [List.length_append, hb] at h
    obtain ⟨fuel', rfl⟩ : ∃ f, fuel = f + 1 := by
      cases fuel
      · simp at h
      · exact ⟨_, rfl⟩
    show utf8DecGo (fuel' + 1) (b :: (tail ++ rest.flatMap utf8Bytes)) = _
    unfold utf8DecGo
    rw [hseq]
    simp only
    rw [Char.ofNat_toNat, ih fuel' (by simp at h ⊢; omega)]

/-- UTF-8 encode/decode roundtrip for whole strings. -/
theorem utf8_roundtrip (cs : List Char) :
    utf8DecodeReplace (cs.flatMap utf8Bytes) = cs :=
  utf8DecGo_flatMap cs _ (Nat.le_refl _)

/-! ## Percent-escape lemmas -/

theorem charToNat_inj {a b : Char} (h : a.toNat = b.toNat) : a = b :=
  Char.ext (UInt32.ext h)

theorem hexDigit_spec {n : Nat} (h : n < 16) :
    isHexDigitChar (hexDigit n) ∧ hexVal (hexDigit n) = n := by
  interval_cases n <;> exact ⟨by decide, by decide⟩

theorem hexDigit_toNat_lt {n : Nat} (h : n < 16) : (hexDigit n).toNat < 0x80 := by
  interval_cases n <;> decide

theorem utf8Bytes_mem (c : Char) :
    ∀ b ∈ utf8Bytes c, b < 256 ∧ ((c.toNat < 0x80 ∧ b = c.toNat) ∨ 0x80 ≤ b) := by
  have hv : c.toNat < 0xd800 ∨ (0xdfff < c.toNat ∧ c.toNat < 0x110000) := c.valid
  unfold utf8Bytes
  dsimp only
  intro b hb
  by_cases h1 : c.toNat < 0x80
  · rw [if_pos h1] at hb
    simp at hb
    omega
  · rw [if_neg h1] at hb
    by_cases h2 : c.toNat < 0x800
    · rw [if_pos h2] at hb
      simp at hb
      rcases hb with h | h <;> omega
    · rw [if_neg h2] at hb
      by_cases h3 : c.toNat < 0x10000
      · rw [if_pos h3] at hb
        simp at hb
        rcases hb with h | h | h <;> omega
      · rw [if_neg h3] at hb
        simp at hb
        rcases hb with h | h | h | h <;> omega

theorem pctStep_length (c : Char) (rest : List Char) :
    (pctStep c rest).2.length ≤ rest.length := by
  unfold pctStep
  by_cases hc : c = '%'
  · rw [if_pos hc]
    rcases rest with _ | ⟨h1, _ | ⟨h2, rest2⟩⟩
    · simp
    · simp
    · simp only
      split <;> simp only [List.length_cons] <;> omega
  · rw [if_neg hc]

theorem pctGo_fuel_eq (f1 : Nat) : ∀ (l : List Char) (f2 : Nat),
    l.length ≤ f1 → l.length ≤ f2 → pctGo f1 l = pctGo f2 l := by
  induction f1 with
  | zero =>
    intro l f2 h1 _
    have : l = [] := List.eq_nil_of_length_eq_zero (by omega)
    subst this
    cases f2 <;> rfl
  | succ a ih =>
    intro l f2 h1 h2
    rcases l with _ | ⟨c, rest⟩
    · rcases f2 with _ | b <;> rfl
    · rcases f2 with _ | b
      · simp at h2
      · show (pctStep c rest).1 :: pctGo a (pctStep c rest).2 =
          (pctStep c rest).1 :: pctGo b (pctStep c rest).2
        have hl := pctStep_length c rest
        simp at h1 h2
        rw [ih (pctStep c rest).2 b (by omega) (by omega)]

theorem pctDecodeBytes_eq_go (l : List Char) (fuel : Nat) (h : l.length ≤ fuel) :
    pctDecodeBytes l = pctGo fuel l :=
  pctGo_fuel_eq l.length l fuel (Nat.le_refl _) h

theorem pctDecodeBytes_cons {c : Char} (rest : List Char) (hc : c ≠ '%') :
    pctDecodeBytes (c :: rest) = c.toNat :: pctDecodeBytes rest := by
  show pctGo (rest.length + 1) (c :: rest) = _
  rw [pctGo]
  unfold pctStep
  rw [if_neg hc]
  rfl

theorem pctDecodeBytes_escape {b : Nat} (hb : b < 256) (rest : List Char) :
    pctDecodeBytes (pctEscape b ++ rest) = b :: pctDecodeBytes rest := by
  have h1 := hexDigit_spec (show b / 16 < 16 by omega)
  have h2 := hexDigit_spec (show b % 16 < 16 by omega)
  show pctGo ((pctEscape b ++ rest).length) ('%' :: hexDigit (b / 16) :: hexDigit (b % 16) :: rest) = _
  have hlen : (pctEscape b ++ rest).length = rest.length + 2 + 1 := by
    simp [pctEscape]
  rw [hlen, pctGo]
  unfold pctStep
  rw [if_pos rfl]
  simp only
  rw [if_pos ⟨h1.1, h2.1⟩, h1.2, h2.2]
  have hb2 : b / 16 * 16 + b % 16 = b := by omega
  rw [hb2]
  congr 1
  exact (pctDecodeBytes_eq_go rest _ (by omega)).symm

/-! ## `quote_plus` characterisation -/

theorem flatMap_congr_mem {α β : Type} {l : List α} {f g : α → List β}
    (h : ∀ a ∈ l, f a = g a) : l.flatMap f = l.flatMap g := by
  induction l with
  | nil => rfl
  | cons a t ih =>
    rw [List.flatMap_cons, List.flatMap_cons, h a (by simp),
      ih (fun x hx => h x (by simp [hx]))]

theorem alwaysSafe_lt {b : Nat} (h : alwaysSafe b) : b < 0x80 := by
  unfold alwaysSafe at h; omega

theorem utf8Bytes_ascii {c : Char} (h : c.toNat < 0x80) :
    utf8Bytes c = [c.toNat] := by
  unfold utf8Bytes
  rw [if_pos h]

theorem toNat_eq_iff {c d : Char} : c = d ↔ c.toNat = d.toNat :=
  ⟨fun h => h ▸ rfl, charToNat_inj⟩

theorem quoteChunk_eq_qpChar {c : Char} (hc : c ≠ ' ') :
    (utf8Bytes c).flatMap (quoteByte []) = qpChar c := by
  by_cases hs : alwaysSafe c.toNat
  · rw [utf8Bytes_ascii (alwaysSafe_lt hs), qpChar, if_pos hs]
    simp [quoteByte, hs]
  · rw [qpChar, if_neg hs, if_neg hc]
    apply flatMap_congr_mem
    intro b hb
    have hm := utf8Bytes_mem c b hb
    rw [quoteByte, if_neg]
    rintro (h | ⟨hlt, hmem⟩)
    · rcases hm.2 with ⟨hca, hbe⟩ | hge
      · exact hs (hbe ▸ h)
      · exact absurd (alwaysSafe_lt h) (by omega)
    · simp at hmem

theorem hexDigit_ne_space {n : Nat} (h : n < 16) : hexDigit n ≠ ' ' := by
  intro he
  have h1 : isHexDigitChar ' ' := he ▸ (hexDigit_spec h).1
  revert h1
  decide

theorem quoteChunkSp_eq_qpChar (c : Char) :
    ((utf8Bytes c).flatMap (quoteByte [' '])).map
      (fun x => if x = ' ' then '+' else x) = qpChar c := by
  by_cases hs : alwaysSafe c.toNat
  · rw [utf8Bytes_ascii (alwaysSafe_lt hs), qpChar, if_pos hs]
    have hcs : c ≠ ' ' := by
      intro he
      rw [he] at hs
      revert hs
      decide
    simp [quoteByte, hs, hcs]
  · by_cases hc : c = ' '
    · subst hc
      decide
    · rw [qpChar, if_neg hs, if_neg hc]
      rw [List.map_flatMap]
      apply flatMap_congr_mem
      intro b hb
      have hm := utf8Bytes_mem c b hb
      have hq : quoteByte [' '] b = pctEscape b := by
        rw [quoteByte, if_neg]
        rintro (h | ⟨hlt, hmem⟩)
        · rcases hm.2 with ⟨hca, hbe⟩ | hge
          · exact hs (hbe ▸ h)
          · exact absurd (alwaysSafe_lt h) (by omega)
        · simp at hmem
          have hb32 : b = 32 := by
            have ht := @toNat_ofNat_valid b (Or.inl (by omega))
            rw [hmem] at ht
            have hsp : (' ').toNat = 32 := by decide
            omega
          rcases hm.2 with ⟨hca, hbe⟩ | hge
          · exact hc (charToNat_inj (by rw [← hbe, hb32]; rfl))
          · omega
      rw [hq]
      unfold pctEscape
      have hh1 := hexDigit_ne_space (show b / 16 < 16 by omega)
      have hh2 := hexDigit_ne_space (show b % 16 < 16 by omega)
      simp [hh1, hh2]

theorem quote_plus_data (s : String) :
    (quote_plus s).data = s.data.flatMap qpChar := by
  unfold quote_plus pyQuote
  by_cases hsp : ' ' ∈ s.data
  · rw [if_pos hsp]
    show pyReplaceCharL ' ' '+' ((s.data.flatMap utf8Bytes).flatMap (quoteByte [' '])) = _
    rw [List.flatMap_assoc]
    unfold pyReplaceCharL
    rw [List.map_flatMap]
    exact flatMap_congr_mem (fun c _ => quoteChunkSp_eq_qpChar c)
  · rw [if_neg hsp]
    show (s.data.flatMap utf8Bytes).flatMap (quoteByte []) = _
    rw [List.flatMap_assoc]
    exact flatMap_congr_mem
      (fun c hc => quoteChunk_eq_qpChar (fun he => hsp (he ▸ hc)))

/-- Every character of `quote_plus` output is a safe character, `+`,
`%`, or a hex digit. -/
theorem qpChar_mem (c : Char) : ∀ x ∈ qpChar c,
    alwaysSafe x.toNat ∨ x = '+' ∨ x = '%' ∨ isHexDigitChar x := by
  unfold qpChar
  intro x hx
  by_cases hs : alwaysSafe c.toNat
  · rw [if_pos hs] at hx
    simp at hx
    subst hx
    exact Or.inl hs
  · rw [if_neg hs] at hx
    by_cases hc : c = ' '
    · rw [if_pos hc] at hx
      simp at hx
      subst hx
      exact Or.inr (Or.inl rfl)
    · rw [if_neg hc] at hx
      simp only [List.mem_flatMap] at hx
      obtain ⟨b, hb, hxe⟩ := hx
      have hm := utf8Bytes_mem c b hb
      unfold pctEscape at hxe
      simp at hxe
      rcases hxe with h | h | h
      · exact Or.inr (Or.inr (Or.inl h))
      · subst h
        exact Or.inr (Or.inr (Or.inr (hexDigit_spec (show b / 16 < 16 by omega)).1))
      · subst h
        exact Or.inr (Or.inr (Or.inr (hexDigit_spec (show b % 16 < 16 by omega)).1))

/-- The characters `quote_plus` can output, numerically: ASCII, and
never one of `& = # ?` nor tab/CR/LF nor a space or colon. -/
theorem qpChar_good (c : Char) : ∀ x ∈ qpChar c,
    x.toNat < 0x80 ∧ x ≠ '&' ∧ x ≠ '=' ∧ x ≠ '#' ∧ x ≠ '?' ∧ x ≠ ' ' ∧
      ¬ isUnsafeUrlByte x := by
  intro x hx
  have h := qpChar_mem c x hx
  have hnum : alwaysSafe x.toNat ∨ x.toNat = 43 ∨ x.toNat = 37 ∨
      isHexDigitChar x := by
    rcases h with h | h | h | h
    · exact Or.inl h
    · subst h; exact Or.inr (Or.inl rfl)
    · subst h; exact Or.inr (Or.inr (Or.inl rfl))
    · exact Or.inr (Or.inr (Or.inr h))
  unfold alwaysSafe isHexDigitChar at hnum
  refine ⟨by omega, ?_, ?_, ?_, ?_, ?_, ?_⟩
  · intro he; subst he; revert hnum; decide
  · intro he; subst he; revert hnum; decide
  · intro he; subst he; revert hnum; decide
  · intro he; subst he; revert hnum; decide
  · intro he; subst he; revert hnum; decide
  · intro hu
    unfold isUnsafeUrlByte at hu
    rcases hu with h | h | h <;> subst h <;> revert hnum <;> decide

/-! ## `unquote_plus ∘ quote_plus` roundtrip -/

theorem pctEscape_mem {b : Nat} (hb : b < 256) :
    ∀ x ∈ pctEscape b, x = '%' ∨ isHexDigitChar x := by
  intro x hx
  unfold pctEscape at hx
  simp at hx
  rcases hx with h | h | h
  · exact Or.inl h
  · exact Or.inr (h ▸ (hexDigit_spec (show b / 16 < 16 by omega)).1)
  · exact Or.inr (h ▸ (hexDigit_spec (show b % 16 < 16 by omega)).1)

theorem pctDecodeBytes_escapes (bs : List Nat) (hb : ∀ b ∈ bs, b < 256)
    (t : List Char) :
    pctDecodeBytes (bs.flatMap pctEscape ++ t) = bs ++ pctDecodeBytes t := by
  induction bs with
  | nil => simp
  | cons b rest ih =>
    rw [List.flatMap_cons, List.append_assoc,
      pctDecodeBytes_escape (hb b (by simp)), ih (fun x hx => hb x (by simp [hx]))]
    rfl

theorem pctDecode_plusified (s : List Char) :
    pctDecodeBytes ((s.flatMap qpChar).map (fun x => if x = '+' then ' ' else x))
      = s.flatMap utf8Bytes := by
  induction s with
  | nil => rfl
  | cons c rest ih =>
    rw [List.flatMap_cons, List.flatMap_cons, List.map_append]
    by_cases hs : alwaysSafe c.toNat
    · have hcp : c ≠ '+' := by
        intro he; rw [he] at hs; revert hs; decide
      have hcq : c ≠ '%' := by
        intro he; rw [he] at hs; revert hs; decide
      rw [show qpChar c = [c] from by rw [qpChar, if_pos hs]]
      simp only [List.map_cons, List.map_nil, if_neg hcp, List.cons_append,
        List.nil_append]
      rw [pctDecodeBytes_cons _ hcq, ih, utf8Bytes_ascii (alwaysSafe_lt hs)]
      rfl
    · by_cases hc : c = ' '
      · subst hc
        rw [show qpChar ' ' = ['+'] from by decide]
        simp only [List.map_cons, List.map_nil, if_pos rfl, List.cons_append,
          List.nil_append]
        rw [pctDecodeBytes_cons _ (by decide), ih]
        rfl
      · rw [show qpChar c = (utf8Bytes c).flatMap pctEscape from by
          rw [qpChar, if_neg hs, if_neg hc]]
        have hmap : ((utf8Bytes c).flatMap pctEscape).map
            (fun x => if x = '+' then ' ' else x) =
            (utf8Bytes c).flatMap pctEscape := by
          rw [List.map_congr_left, List.map_id]
          intro x hx
          simp only [List.mem_flatMap] at hx
          obtain ⟨b, hb, hxe⟩ := hx
          have := pctEscape_mem (utf8Bytes_mem c b hb).1 x hxe
          have hxp : x ≠ '+' := by
            rcases this with h | h
            · subst h; decide
            · intro he; rw [he] at h; revert h; decide
          simp [hxp]
        rw [hmap, pctDecodeBytes_escapes _ (fun b hb => (utf8Bytes_mem c b hb).1), ih]

theorem unquoteGo_ascii (l : List Char) (acc : List Char)
    (h : ∀ c ∈ l, c.toNat < 0x80) :
    unquoteGo acc l = utf8DecodeReplace (pctDecodeBytes (acc ++ l)) := by
  induction l generalizing acc with
  | nil => rw [unquoteGo, List.append_nil]
  | cons c rest ih =>
    rw [unquoteGo, if_pos (h c (by simp)),
      ih (acc ++ [c]) (fun x hx => h x (by simp [hx])), List.append_assoc]
    rfl

/-- `unquote_plus(quote_plus(s)) == s`: the full form-encoding
roundtrip. -/
theorem unquote_plus_quote_plus (s : String) :
    unquote_plus (quote_plus s) = s := by
  unfold unquote_plus plusToSpace pyReplaceCharL
  rw [quote_plus_data]
  unfold unquoteL
  by_cases hp : '%' ∈ (s.data.flatMap qpChar).map (fun x => if x = '+' then ' ' else x)
  · rw [if_pos hp]
    rw [unquoteGo_ascii _ [] ?hascii]
    case hascii =>
      intro x hx
      simp only [List.mem_map] at hx
      obtain ⟨y, hy, hxe⟩ := hx
      simp only [List.mem_flatMap] at hy
      obtain ⟨c, _, hyc⟩ := hy
      have := (qpChar_good c y hyc).1
      subst hxe
      split
      · decide
      · exact this
    rw [List.nil_append, pctDecode_plusified, utf8_roundtrip]
  · rw [if_neg hp]
    have hall : ∀ c ∈ s.data,
        (qpChar c).map (fun x => if x = '+' then ' ' else x) = [c] := by
      intro c hc
      by_cases hs : alwaysSafe c.toNat
      · have hcp : c ≠ '+' := by
          intro he; rw [he] at hs; revert hs; decide
        rw [show qpChar c = [c] from by rw [qpChar, if_pos hs]]
        simp [hcp]
      · by_cases hsp : c = ' '
        · subst hsp; decide
        · exfalso
          apply hp
          simp only [List.mem_map, List.mem_flatMap]
          obtain ⟨b, tail, hb, _⟩ := utf8SeqVal_of_char c
          refine ⟨'%', ⟨c, hc, ?_⟩, by decide⟩
          rw [qpChar, if_neg hs, if_neg hsp, hb, List.flatMap_cons]
          simp [pctEscape]
    rw [List.map_flatMap]
    rw [flatMap_congr_mem hall]
    rw [List.flatMap_singleton']

/-! ## Split / join lemmas and the `parse_qsl ∘ urlencode` roundtrip -/

theorem splitFirst_no_sep {sep : Char} {l : List Char} (h : sep ∉ l) :
    splitFirst sep l = none := by
  induction l with
  | nil => rfl
  | cons c rest ih =>
    rw [splitFirst, if_neg (by simp at h; exact fun he => h.1 he.symm),
      ih (by simp at h; exact h.2)]
    rfl

theorem splitFirst_append {sep : Char} {a : List Char} (h : sep ∉ a)
    (b : List Char) : splitFirst sep (a ++ sep :: b) = some (a, b) := by
  induction a with
  | nil => simp [splitFirst]
  | cons c rest ih =>
    simp only [List.mem_cons, not_or] at h
    rw [List.cons_append, splitFirst, if_neg (fun he => h.1 he.symm), ih h.2]
    rfl

theorem splitAllL_no_sep {sep : Char} {l : List Char} (h : sep ∉ l) :
    splitAllL sep l = [l] := by
  induction l with
  | nil => rfl
  | cons c rest ih =>
    simp only [List.mem_cons, not_or] at h
    rw [splitAllL, ih h.2]
    dsimp only
    rw [if_neg (fun he => h.1 he.symm)]

theorem splitAllL_ne_nil (sep : Char) (l : List Char) : splitAllL sep l ≠ [] := by
  induction l with
  | nil => simp [splitAllL]
  | cons c rest ih =>
    rw [splitAllL]
    rcases hs : splitAllL sep rest with _ | ⟨g, gs⟩
    · exact absurd hs ih
    · dsimp only
      split <;> simp

theorem splitAllL_append {sep : Char} {a : List Char} (h : sep ∉ a)
    (t : List Char) : splitAllL sep (a ++ sep :: t) = a :: splitAllL sep t := by
  induction a with
  | nil =>
    rw [List.nil_append, splitAllL]
    rcases hs : splitAllL sep t with _ | ⟨g, gs⟩
    · exact absurd hs (splitAllL_ne_nil sep t)
    · dsimp only
      rw [if_pos rfl]
  | cons c rest ih =>
    simp only [List.mem_cons, not_or] at h
    rw [List.cons_append, splitAllL, ih h.2]
    dsimp only
    rw [if_neg (fun he => h.1 he.symm)]

theorem splitAllL_joinSepL {sep : Char} (segs : List (List Char))
    (hne : segs ≠ []) (h : ∀ seg ∈ segs, sep ∉ seg) :
    splitAllL sep (joinSepL sep segs) = segs := by
  induction segs with
  | nil => exact absurd rfl hne
  | cons x rest ih =>
    cases rest with
    | nil => exact splitAllL_no_sep (h x (by simp))
    | cons y t =>
      rw [joinSepL, splitAllL_append (h x (by simp))]
      rw [ih (by simp) (fun seg hs => h seg (by simp [hs]))]

theorem joinSepL_cons_ne_nil {sep : Char} {x : List Char}
    (hx : x ≠ []) (rest : List (List Char)) : joinSepL sep (x :: rest) ≠ [] := by
  cases rest with
  | nil => exact hx
  | cons y t =>
    rw [joinSepL]
    intro he
    exact absurd (List.append_eq_nil.mp he).2 (by simp)

theorem filterMap_map_some {α β : Type} (l : List α) (F : α → β)
    (g : β → Option α) (h : ∀ a ∈ l, g (F a) = some a) :
    (l.map F).filterMap g = l := by
  induction l with
  | nil => rfl
  | cons a rest ih =>
    rw [List.map_cons, List.filterMap_cons, h a (by simp),
      ih (fun x hx => h x (by simp [hx]))]

theorem mem_quote_plus_good (k : String) :
    ∀ x ∈ (quote_plus k).data, x.toNat < 0x80 ∧ x ≠ '&' ∧ x ≠ '=' ∧ x ≠ '#' ∧
      x ≠ '?' ∧ x ≠ ' ' ∧ ¬ isUnsafeUrlByte x := by
  intro x hx
  rw [quote_plus_data] at hx
  simp only [List.mem_flatMap] at hx
  obtain ⟨c, _, hxc⟩ := hx
  exact qpChar_good c x hxc

/-- `unquote_plus` undoes `quote_plus`, stated on the raw character
lists as they occur inside `parse_qsl`. -/
theorem unquoteL_plusToSpace_qp (k : String) :
    (⟨unquoteL (plusToSpace (quote_plus k).data)⟩ : String) = k :=
  unquote_plus_quote_plus k

/-- Decoding an encoded dict recovers it exactly (`parse_qsl` of
`urlencode`, with `keep_blank_values=True`). -/
theorem parse_qsl_urlencode (d : PyDict) : parse_qsl (urlencode d) = d := by
  rcases d with _ | ⟨kv, rest⟩
  · rfl
  · unfold parse_qsl urlencode
    rw [if_neg (by
      simp only [List.map_cons]
      intro he
      have hd := congrArg String.data he
      exact joinSepL_cons_ne_nil (by simp) _ hd)]
    show (splitAllL '&' (joinSepL '&' (((kv :: rest).map _)))).filterMap _ = _
    rw [splitAllL_joinSepL _ (by simp) ?hnosep]
    case hnosep =>
      intro seg hseg
      simp only [List.mem_map] at hseg
      obtain ⟨p, _, hpe⟩ := hseg
      subst hpe
      intro hmem
      rcases List.mem_append.mp hmem with h | h
      · exact (mem_quote_plus_good p.1 '&' h).2.1 rfl
      · rcases List.mem_cons.mp h with h | h
        · exact absurd h.symm (by decide)
        · exact (mem_quote_plus_good p.2 '&' h).2.1 rfl
    apply filterMap_map_some
    intro p _
    rw [if_neg (by
      intro he
      exact absurd (List.append_eq_nil.mp he).2 (by simp))]
    rw [splitFirst_append (fun hmem => (mem_quote_plus_good p.1 '=' hmem).2.2.1 rfl)]
    simp only
    rw [unquoteL_plusToSpace_qp, unquoteL_plusToSpace_qp]

/-! ## Dict lemmas -/

theorem dictContains_iff {d : PyDict} {k : String} :
    dictContains d k = true ↔ k ∈ d.map Prod.fst := by
  unfold dictContains
  rw [List.any_eq_true]
  constructor
  · rintro ⟨p, hp, he⟩
    simp at he
    exact List.mem_map.mpr ⟨p, hp, he⟩
  · rintro h
    obtain ⟨p, hp, he⟩ := List.mem_map.mp h
    exact ⟨p, hp, by simp [he]⟩

theorem mem_dictInsert {kv : String × String} {d : PyDict} {k v : String}
    (h : kv ∈ dictInsert d k v) : kv = (k, v) ∨ kv ∈ d := by
  unfold dictInsert at h
  split at h
  · simp only [List.mem_map] at h
    obtain ⟨p, hp, hpe⟩ := h
    by_cases hk : p.1 = k
    · rw [if_pos hk] at hpe
      exact Or.inl hpe.symm
    · rw [if_neg hk] at hpe
      exact Or.inr (hpe ▸ hp)
  · rcases List.mem_append.mp h with h | h
    · exact Or.inr h
    · simp at h
      exact Or.inl (by simp [h])

theorem keys_dictInsert_of_contains {d : PyDict} {k v : String}
    (h : dictContains d k = true) :
    (dictInsert d k v).map Prod.fst = d.map Prod.fst := by
  unfold dictInsert
  rw [if_pos h, List.map_map]
  apply List.map_congr_left
  intro p _
  by_cases hk : p.1 = k
  · simp [hk]
  · simp [hk]

theorem keys_dictInsert_of_not {d : PyDict} {k v : String}
    (h : ¬ dictContains d k = true) :
    (dictInsert d k v).map Prod.fst = d.map Prod.fst ++ [k] := by
  unfold dictInsert
  rw [if_neg h]
  simp

theorem nodupKeys_dictInsert {d : PyDict} {k v : String}
    (h : (d.map Prod.fst).Nodup) :
    ((dictInsert d k v).map Prod.fst).Nodup := by
  by_cases hc : dictContains d k = true
  · rw [keys_dictInsert_of_contains hc]
    exact h
  · rw [keys_dictInsert_of_not hc]
    rw [List.nodup_append]
    refine ⟨h, by simp, ?_⟩
    intro x hx
    simp only [List.mem_singleton]
    intro he
    exact hc (dictContains_iff.mpr (he ▸ hx))

theorem foldl_dictInsert_nodup (l : List (String × String)) (d : PyDict)
    (h : (d.map Prod.fst).Nodup) :
    ((l.foldl (fun a p => dictInsert a p.1 p.2) d).map Prod.fst).Nodup := by
  induction l generalizing d with
  | nil => exact h
  | cons p rest ih => exact ih _ (nodupKeys_dictInsert h)

theorem foldl_dictInsert_fresh (l : List (String × String)) :
    ∀ d : PyDict, (l.map Prod.fst).Nodup →
      (∀ p ∈ l, ¬ dictContains d p.1 = true) →
      l.foldl (fun a p => dictInsert a p.1 p.2) d = d ++ l := by
  induction l with
  | nil => intro d _ _; simp
  | cons p rest ih =>
    intro d hnd hfresh
    simp only [List.map_cons, List.nodup_cons] at hnd
    rw [List.foldl_cons]
    rw [show dictInsert d p.1 p.2 = d ++ [(p.1, p.2)] from by
      unfold dictInsert; rw [if_neg (hfresh p (by simp))]]
    rw [ih (d ++ [(p.1, p.2)]) hnd.2 ?fresh]
    · simp
    case fresh =>
      intro q hq hcon
      rw [dictContains_iff] at hcon
      simp only [List.map_append, List.mem_append] at hcon
      rcases hcon with h | h
      · exact hfresh q (by simp [hq]) (dictContains_iff.mpr h)
      · simp at h
        exact hnd.1 (h ▸ List.mem_map_of_mem Prod.fst hq)

/-- Rebuilding a dict from an association list with distinct keys gives
back the list itself. -/
theorem foldl_dictInsert_of_nodup (l : List (String × String))
    (h : (l.map Prod.fst).Nodup) :
    l.foldl (fun a p => dictInsert a p.1 p.2) [] = l := by
  rw [foldl_dictInsert_fresh l [] h (by intro p _; unfold dictContains; simp)]
  simp

theorem mem_dictUpdate {kv : String × String} {d u : PyDict}
    (h : kv ∈ dictUpdate d u) : kv ∈ u ∨ kv ∈ d := by
  unfold dictUpdate at h
  induction u generalizing d with
  | nil => exact Or.inr h
  | cons p rest ih =>
    rw [List.foldl_cons] at h
    rcases ih h with h2 | h2
    · exact Or.inl (by simp [h2])
    · rcases mem_dictInsert h2 with h3 | h3
      · exact Or.inl (by simp [h3])
      · exact Or.inr h3

theorem keys_dictUpdate (u : PyDict) : ∀ d : PyDict, (u.map Prod.fst).Nodup →
    (dictUpdate d u).map Prod.fst =
      d.map Prod.fst ++ (u.map Prod.fst).filter (fun x => ! dictContains d x) := by
  induction u with
  | nil => intro d _; simp [dictUpdate]
  | cons p rest ih =>
    intro d hnd
    simp only [List.map_cons, List.nodup_cons] at hnd
    show (dictUpdate (dictInsert d p.1 p.2) rest).map Prod.fst = _
    rw [ih _ hnd.2]
    by_cases hc : dictContains d p.1 = true
    · rw [keys_dictInsert_of_contains hc]
      simp only [List.map_cons, List.filter_cons, hc]
      congr 1
      apply List.filter_congr
      intro x _
      congr 1
      rw [Bool.eq_iff_iff, dictContains_iff, dictContains_iff,
        keys_dictInsert_of_contains hc]
    · rw [keys_dictInsert_of_not hc]
      simp only [List.map_cons, List.filter_cons, hc, Bool.not_false, if_true]
      rw [List.append_assoc, List.singleton_append]
      congr 2
      apply List.filter_congr
      intro x hx
      congr 1
      rw [Bool.eq_iff_iff, dictContains_iff, dictContains_iff,
        keys_dictInsert_of_not hc]
      simp only [List.mem_append, List.mem_singleton]
      constructor
      · rintro (h | h)
        · exact h
        · exact absurd (h ▸ hx) hnd.1
      · exact Or.inl

theorem dictUpdate_nil (d : PyDict) : dictUpdate d [] = d := rfl

/-! ## Normalization lemmas -/

theorem pyIsSpace_iff (c : Char) : pyIsSpace c ↔
    c.toNat = 32 ∨ c.toNat = 9 ∨ c.toNat = 10 ∨ c.toNat = 13 ∨
      c.toNat = 11 ∨ c.toNat = 12 := by
  unfold pyIsSpace
  constructor
  · rintro (h | h | h | h | h | h)
    · exact Or.inl (by subst h; decide)
    · exact Or.inr (Or.inl (by subst h; decide))
    · exact Or.inr (Or.inr (Or.inl (by subst h; decide)))
    · exact Or.inr (Or.inr (Or.inr (Or.inl (by subst h; decide))))
    · exact Or.inr (Or.inr (Or.inr (Or.inr (Or.inl h))))
    · exact Or.inr (Or.inr (Or.inr (Or.inr (Or.inr h))))
  · rintro (h | h | h | h | h | h)
    · exact Or.inl (charToNat_inj (by rw [h]; decide))
    · exact Or.inr (Or.inl (charToNat_inj (by rw [h]; decide)))
    · exact Or.inr (Or.inr (Or.inl (charToNat_inj (by rw [h]; decide))))
    · exact Or.inr (Or.inr (Or.inr (Or.inl (charToNat_inj (by rw [h]; decide)))))
    · exact Or.inr (Or.inr (Or.inr (Or.inr (Or.inl h))))
    · exact Or.inr (Or.inr (Or.inr (Or.inr (Or.inr h))))

theorem pyLowerChar_not_space {c : Char} (h : ¬ pyIsSpace c) :
    ¬ pyIsSpace (pyLowerChar c) := by
  unfold pyLowerChar
  split
  · rename_i hu
    rw [pyIsSpace_iff, @toNat_ofNat_valid (c.toNat + 32) (Or.inl (by omega))]
    omega
  · exact h

theorem mem_dropWhile_of_not {p : Char → Bool} {x : Char} {l : List Char}
    (hx : x ∈ l) (hp : ¬ p x = true) : x ∈ l.dropWhile p := by
  induction l with
  | nil => simp at hx
  | cons a rest ih =>
    rw [List.dropWhile_cons]
    split
    · rcases List.mem_cons.mp hx with he | hm
      · exact absurd (he ▸ (by assumption)) hp
      · exact ih hm
    · exact hx

theorem mem_pyStripL_of_not {x : Char} {l : List Char} (hx : x ∈ l)
    (hp : ¬ pyIsSpace x) : x ∈ pyStripL l := by
  unfold pyStripL
  have h1 := @mem_dropWhile_of_not (fun c => decide (pyIsSpace c)) x l hx
    (by simp [hp])
  have h2 := @mem_dropWhile_of_not (fun c => decide (pyIsSpace c)) x _
    (List.mem_reverse.mpr h1) (by simp [hp])
  exact List.mem_reverse.mpr h2

theorem pyStripL_ne_nil {x : Char} {l : List Char} (hx : x ∈ l)
    (hp : ¬ pyIsSpace x) : pyStripL l ≠ [] :=
  List.ne_nil_of_mem (mem_pyStripL_of_not hx hp)

theorem pyStripL_head {l : List Char} {c : Char} {rest : List Char}
    (h : pyStripL l = c :: rest) : ¬ pyIsSpace c := by
  have hsuf : (l.dropWhile (fun c => decide (pyIsSpace c))).reverse.dropWhile
      (fun c => decide (pyIsSpace c)) <:+
      (l.dropWhile (fun c => decide (pyIsSpace c))).reverse :=
    List.dropWhile_suffix _
  have hpre := List.reverse_prefix.mpr hsuf
  rw [List.reverse_reverse] at hpre
  obtain ⟨t, ht⟩ := hpre
  unfold pyStripL at h
  rw [h] at ht
  have hq := List.head?_dropWhile_not (fun c => decide (pyIsSpace c)) l
  rw [← ht] at hq
  simp at hq
  exact hq

/-- The character-level form of `transformStr`: strip, then map a
whitespace-preserving character function. -/
theorem transformStr_data (fl : Bool) (sm : SpaceMode) (s : String) :
    ∃ g : Char → Char,
      (transformStr fl sm s).data = (pyStripL s.data).map g ∧
        ∀ c, ¬ pyIsSpace c → ¬ pyIsSpace (g c) := by
  unfold transformStr pyStrip
  cases fl <;> cases sm
  case false.keep =>
    exact ⟨id, by simp, fun c h => h⟩
  case false.underscore =>
    refine ⟨fun c => if c = ' ' then '_' else c, by simp [pyReplaceCharL], ?_⟩
    intro c h
    have hc : c ≠ ' ' := fun he => h (by rw [he]; exact Or.inl rfl)
    show ¬ pyIsSpace (if c = ' ' then '_' else c)
    rw [if_neg hc]
    exact h
  case false.dash =>
    refine ⟨fun c => if c = ' ' then '-' else c, by simp [pyReplaceCharL], ?_⟩
    intro c h
    have hc : c ≠ ' ' := fun he => h (by rw [he]; exact Or.inl rfl)
    show ¬ pyIsSpace (if c = ' ' then '-' else c)
    rw [if_neg hc]
    exact h
  case true.keep =>
    exact ⟨pyLowerChar, by simp [pyLowerL], fun c h => pyLowerChar_not_space h⟩
  case true.underscore =>
    refine ⟨fun c => if pyLowerChar c = ' ' then '_' else pyLowerChar c,
      by simp [pyReplaceCharL, pyLowerL], ?_⟩
    intro c h
    have h2 := pyLowerChar_not_space h
    have hc : pyLowerChar c ≠ ' ' := fun he => h2 (by rw [he]; exact Or.inl rfl)
    show ¬ pyIsSpace (if pyLowerChar c = ' ' then '_' else pyLowerChar c)
    rw [if_neg hc]
    exact h2
  case true.dash =>
    refine ⟨fun c => if pyLowerChar c = ' ' then '-' else pyLowerChar c,
      by simp [pyReplaceCharL, pyLowerL], ?_⟩
    intro c h
    have h2 := pyLowerChar_not_space h
    have hc : pyLowerChar c ≠ ' ' := fun he => h2 (by rw [he]; exact Or.inl rfl)
    show ¬ pyIsSpace (if pyLowerChar c = ' ' then '-' else pyLowerChar c)
    rw [if_neg hc]
    exact h2

/-- A nonempty normalized string never trims to empty: `transformStr`
output starts with a non-whitespace character. -/
theorem transformStr_strip_ne {fl : Bool} {sm : SpaceMode} {s : String}
    (h : transformStr fl sm s ≠ "") :
    pyStrip (transformStr fl sm s) ≠ "" := by
  obtain ⟨g, hg, hgp⟩ := transformStr_data fl sm s
  have hne : (transformStr fl sm s).data ≠ [] := by
    intro he
    exact h (congrArg String.mk he)
  rw [hg] at hne
  rcases ht : pyStripL s.data with _ | ⟨c, rest⟩
  · rw [ht] at hne; simp at hne
  · have hc := pyStripL_head ht
    have hmem : g c ∈ (transformStr fl sm s).data := by
      rw [hg, ht]; simp
    unfold pyStrip
    intro he
    have hdata := congrArg String.data he
    simp only at hdata
    exact pyStripL_ne_nil hmem (hgp c hc) hdata

/-! ## Lemmas about the builder's dicts -/

theorem utmStep_cases (fl : Bool) (sm : SpaceMode) (oe : Bool) (ex : PyDict)
    (u : PyDict) (kv : String × String) :
    utmStep fl sm oe ex u kv = u ∨
      (utmStep fl sm oe ex u kv =
          dictInsert u (transformStr fl sm kv.1) (transformStr fl sm kv.2) ∧
        transformStr fl sm kv.1 ≠ "" ∧ transformStr fl sm kv.2 ≠ "" ∧
        kv.2 ≠ "") := by
  unfold utmStep normalize_pair pyTransform
  by_cases h2 : kv.2 = ""
  · rw [if_pos h2]
    exact Or.inl rfl
  · rw [if_neg h2]
    simp only
    by_cases hb : transformStr fl sm kv.1 = "" ∨ transformStr fl sm kv.2 = ""
    · rw [if_pos hb]
      exact Or.inl rfl
    · rw [if_neg hb]
      push_neg at hb
      by_cases ho : (oe = true) ∨ ¬ dictContains ex (transformStr fl sm kv.1) = true
      · rw [if_pos ho]
        exact Or.inr ⟨rfl, hb.1, hb.2, h2⟩
      · rw [if_neg ho]
        exact Or.inl rfl

theorem foldl_utmStep_mem (pairs : List (String × String)) (fl : Bool)
    (sm : SpaceMode) (oe : Bool) (ex : PyDict) :
    ∀ u : PyDict, ∀ kv ∈ pairs.foldl (utmStep fl sm oe ex) u,
      kv ∈ u ∨ ∃ p ∈ pairs, kv.1 = transformStr fl sm p.1 ∧
        kv.2 = transformStr fl sm p.2 ∧ kv.1 ≠ "" ∧ kv.2 ≠ "" := by
  induction pairs with
  | nil => intro u kv h; exact Or.inl h
  | cons q rest ih =>
    intro u kv h
    rw [List.foldl_cons] at h
    rcases ih (utmStep fl sm oe ex u q) kv h with h2 | h2
    · rcases utmStep_cases fl sm oe ex u q with hs | hs
      · exact Or.inl (hs ▸ h2)
      · rw [hs.1] at h2
        rcases mem_dictInsert h2 with h3 | h3
        · exact Or.inr ⟨q, by simp, by simp [h3], by simp [h3],
            by simp [h3, hs.2.1], by simp [h3, hs.2.2.1]⟩
        · exact Or.inl h3
    · obtain ⟨p, hp, hrest⟩ := h2
      exact Or.inr ⟨p, by simp [hp], hrest⟩

theorem utmParams_mem (pairs : List (String × String)) (fl : Bool)
    (sm : SpaceMode) (oe : Bool) (ex : PyDict) :
    ∀ kv ∈ utmParams pairs fl sm oe ex, ∃ p ∈ pairs,
      kv.1 = transformStr fl sm p.1 ∧ kv.2 = transformStr fl sm p.2 ∧
      kv.1 ≠ "" ∧ kv.2 ≠ "" := by
  intro kv h
  rcases foldl_utmStep_mem pairs fl sm oe ex [] kv h with h2 | h2
  · simp at h2
  · exact h2

theorem foldl_utmStep_nodup (pairs : List (String × String)) (fl : Bool)
    (sm : SpaceMode) (oe : Bool) (ex : PyDict) :
    ∀ u : PyDict, (u.map Prod.fst).Nodup →
      ((pairs.foldl (utmStep fl sm oe ex) u).map Prod.fst).Nodup := by
  induction pairs with
  | nil => intro u h; exact h
  | cons q rest ih =>
    intro u h
    rw [List.foldl_cons]
    apply ih
    rcases utmStep_cases fl sm oe ex u q with hs | hs
    · rw [hs]; exact h
    · rw [hs.1]; exact nodupKeys_dictInsert h

theorem utmParams_nodup (pairs : List (String × String)) (fl : Bool)
    (sm : SpaceMode) (oe : Bool) (ex : PyDict) :
    ((utmParams pairs fl sm oe ex).map Prod.fst).Nodup :=
  foldl_utmStep_nodup pairs fl sm oe ex [] (by simp)

theorem existingParams_nodup (me : Bool) (q : String) :
    ((existingParams me q).map Prod.fst).Nodup := by
  unfold existingParams
  split
  · exact foldl_dictInsert_nodup _ [] (by simp)
  · simp

theorem existingParams_false (q : String) : existingParams false q = [] := by
  unfold existingParams
  rw [if_neg (by simp)]

theorem dictUpdate_nodup (u : PyDict) : ∀ d : PyDict,
    (d.map Prod.fst).Nodup → ((dictUpdate d u).map Prod.fst).Nodup := by
  induction u with
  | nil => intro d h; exact h
  | cons p rest ih =>
    intro d h
    exact ih _ (nodupKeys_dictInsert h)

theorem urlencode_eq_empty {d : PyDict} : urlencode d = "" ↔ d = [] := by
  constructor
  · intro h
    rcases d with _ | ⟨kv, rest⟩
    · rfl
    · exfalso
      have hd := congrArg String.data h
      simp only [urlencode, List.map_cons] at hd
      exact joinSepL_cons_ne_nil (by simp) _ hd
  · intro h
    subst h
    rfl

/-! ## `urlsplit` / `urlunsplit` lemmas -/

theorem strAppend_data (a b : String) : (a ++ b).data = a.data ++ b.data := rfl

theorem splitFirst_eq_some {sep : Char} {l a b : List Char}
    (h : splitFirst sep l = some (a, b)) : l = a ++ sep :: b ∧ sep ∉ a := by
  induction l generalizing a b with
  | nil => simp [splitFirst] at h
  | cons c rest ih =>
    rw [splitFirst] at h
    by_cases hc : c = sep
    · rw [if_pos hc] at h
      simp at h
      obtain ⟨ha, hb⟩ := h
      subst ha
      subst hb
      subst hc
      exact ⟨rfl, by simp⟩
    · rw [if_neg hc] at h
      rcases hsf : splitFirst sep rest with _ | ⟨a2, b2⟩
      · rw [hsf] at h; simp at h
      · rw [hsf] at h
        simp at h
        obtain ⟨hab, hb⟩ := h
        subst hb
        obtain ⟨he, hns⟩ := ih hsf
        rw [← hab]
        constructor
        · rw [he]; simp
        · simp only [List.mem_cons, not_or]
          exact ⟨fun hx => hc hx.symm, hns⟩

theorem splitFirst_eq_none {sep : Char} {l : List Char}
    (h : splitFirst sep l = none) : sep ∉ l := by
  induction l with
  | nil => simp
  | cons c rest ih =>
    rw [splitFirst] at h
    by_cases hc : c = sep
    · rw [if_pos hc] at h; simp at h
    · rw [if_neg hc] at h
      rcases hsf : splitFirst sep rest with _ | p
      · simp only [List.mem_cons, not_or]
        exact ⟨fun hx => hc hx.symm, ih hsf⟩
      · rw [hsf] at h; simp at h

theorem isSchemeChar_not_colon {c : Char} (h : isSchemeChar c) : c ≠ ':' := by
  intro he
  subst he
  revert h
  decide

theorem isSchemeChar_not_unsafe {c : Char} (h : isSchemeChar c) :
    ¬ isUnsafeUrlByte c := by
  unfold isSchemeChar at h
  unfold isUnsafeUrlByte
  rintro (he | he | he) <;> subst he <;> revert h <;> decide

theorem pyLowerChar_toNat (c : Char) :
    (pyLowerChar c).toNat = if 65 ≤ c.toNat ∧ c.toNat ≤ 90 then c.toNat + 32
      else c.toNat := by
  unfold pyLowerChar
  split
  · exact @toNat_ofNat_valid (c.toNat + 32) (Or.inl (by omega))
  · rfl

theorem pyLowerChar_schemeChar {c : Char} (h : isSchemeChar c) :
    isSchemeChar (pyLowerChar c) := by
  unfold isSchemeChar at h ⊢
  rw [pyLowerChar_toNat]
  split <;> omega

theorem pyLowerChar_alpha {c : Char} (h : isAsciiAlpha c) :
    isAsciiAlpha (pyLowerChar c) := by
  unfold isAsciiAlpha at h ⊢
  rw [pyLowerChar_toNat]
  split <;> omega

theorem pyLowerChar_idem (c : Char) : pyLowerChar (pyLowerChar c) = pyLowerChar c := by
  apply charToNat_inj
  rw [pyLowerChar_toNat, pyLowerChar_toNat]
  split_ifs <;> omega

theorem pyLowerL_idem (l : List Char) : pyLowerL (pyLowerL l) = pyLowerL l := by
  unfold pyLowerL
  rw [List.map_map]
  apply List.map_congr_left
  intro c _
  exact pyLowerChar_idem c

/-- What `splitScheme` guarantees about the scheme it returns. -/
theorem splitScheme_props (l : List Char) :
    (splitScheme l).1 = [] ∨
      ((∃ c r, (splitScheme l).1 = c :: r ∧ isAsciiAlpha c) ∧
        (∀ c ∈ (splitScheme l).1, isSchemeChar c) ∧
        pyLowerL (splitScheme l).1 = (splitScheme l).1) := by
  unfold splitScheme
  rcases hsf : splitFirst ':' l with _ | ⟨pre, post⟩
  · exact Or.inl rfl
  · simp only
    by_cases hcond : pre ≠ [] ∧ (∀ c ∈ pre.take 1, isAsciiAlpha c) ∧
        (∀ c ∈ pre, isSchemeChar c)
    · rw [if_pos hcond]
      obtain ⟨hne, hhead, hall⟩ := hcond
      refine Or.inr ⟨?_, ?_, pyLowerL_idem pre⟩
      · rcases pre with _ | ⟨c0, r⟩
        · exact absurd rfl hne
        · exact ⟨pyLowerChar c0, pyLowerL r, rfl,
            pyLowerChar_alpha (hhead c0 (by simp))⟩
      · intro c hc
        unfold pyLowerL at hc
        obtain ⟨c0, hc0, he⟩ := List.mem_map.mp hc
        exact he ▸ pyLowerChar_schemeChar (hall c0 hc0)
    · rw [if_neg hcond]
      exact Or.inl rfl

/-- What `splitScheme` leaves of the url. -/
theorem splitScheme_rest (l : List Char) :
    (splitScheme l).2 = l ∨
      ∃ pre, l = pre ++ ':' :: (splitScheme l).2 := by
  unfold splitScheme
  rcases hsf : splitFirst ':' l with _ | ⟨pre, post⟩
  · exact Or.inl rfl
  · simp only
    split
    · exact Or.inr ⟨pre, (splitFirst_eq_some hsf).1⟩
    · exact Or.inl rfl

/-! ## `urlsplit` stage lemmas -/

theorem splitNetloc_fst_mem {l : List Char} :
    ∀ c ∈ (splitNetloc l).1, ¬ isNetlocDelim c ∧ c ∈ l := by
  unfold splitNetloc
  split
  · intro c hc
    simp only at hc
    refine ⟨by simpa using List.mem_takeWhile_imp hc, ?_⟩
    exact List.mem_of_mem_drop (List.takeWhile_subset _ hc)
  · intro c hc
    simp at hc

theorem splitNetloc_snd_mem {l : List Char} :
    ∀ c ∈ (splitNetloc l).2, c ∈ l := by
  unfold splitNetloc
  split
  · intro c hc
    simp only at hc
    exact List.mem_of_mem_drop ((List.dropWhile_sublist _).subset hc)
  · intro c hc
    exact hc

theorem splitFrag_eq {l : List Char} :
    ('#' ∉ (splitFrag l).1) ∧
      (l = (splitFrag l).1 ++ '#' :: (splitFrag l).2 ∨
        ((splitFrag l).1 = l ∧ (splitFrag l).2 = [])) := by
  unfold splitFrag
  rcases hs : splitFirst '#' l with _ | ⟨a, b⟩
  · exact ⟨splitFirst_eq_none hs, Or.inr ⟨rfl, rfl⟩⟩
  · obtain ⟨he, hn⟩ := splitFirst_eq_some hs
    exact ⟨hn, Or.inl he⟩

theorem splitQuery_eq {l : List Char} :
    ('?' ∉ (splitQuery l).1) ∧
      (l = (splitQuery l).1 ++ '?' :: (splitQuery l).2 ∨
        ((splitQuery l).1 = l ∧ (splitQuery l).2 = [])) := by
  unfold splitQuery
  rcases hs : splitFirst '?' l with _ | ⟨a, b⟩
  · exact ⟨splitFirst_eq_none hs, Or.inr ⟨rfl, rfl⟩⟩
  · obtain ⟨he, hn⟩ := splitFirst_eq_some hs
    exact ⟨hn, Or.inl he⟩

theorem splitFrag_fst_mem {l : List Char} : ∀ c ∈ (splitFrag l).1, c ∈ l := by
  intro c hc
  rcases (@splitFrag_eq l).2 with he | ⟨he, _⟩
  · rw [he]; simp [hc]
  · exact he ▸ hc

theorem splitFrag_snd_mem {l : List Char} : ∀ c ∈ (splitFrag l).2, c ∈ l := by
  intro c hc
  rcases (@splitFrag_eq l).2 with he | ⟨_, he⟩
  · rw [he]; simp [hc]
  · rw [he] at hc; simp at hc

theorem splitQuery_fst_mem {l : List Char} : ∀ c ∈ (splitQuery l).1, c ∈ l := by
  intro c hc
  rcases (@splitQuery_eq l).2 with he | ⟨he, _⟩
  · rw [he]; simp [hc]
  · exact he ▸ hc

/-- Properties of every successful `urlsplit`: the scheme is empty or a
lowered run of scheme characters led by a letter; the netloc contains
no delimiter and passed the bracket check; the path contains no stray
`#`/`?`; no component contains tab/CR/LF. -/
theorem urlsplit_ok_props {url : String} {p : SplitResult}
    (h : urlsplit url = .ok p) :
    (p.scheme.data = [] ∨
      ((∃ c r, p.scheme.data = c :: r ∧ isAsciiAlpha c) ∧
        (∀ c ∈ p.scheme.data, isSchemeChar c) ∧
        pyLowerL p.scheme.data = p.scheme.data)) ∧
    (∀ c ∈ p.netloc.data, ¬ isNetlocDelim c ∧ ¬ isUnsafeUrlByte c) ∧
    ¬ (('[' ∈ p.netloc.data ∧ ']' ∉ p.netloc.data) ∨
        (']' ∈ p.netloc.data ∧ '[' ∉ p.netloc.data)) ∧
    (∀ c ∈ p.path.data, c ≠ '#' ∧ c ≠ '?' ∧ ¬ isUnsafeUrlByte c) ∧
    (∀ c ∈ p.fragment.data, ¬ isUnsafeUrlByte c) := by
  unfold urlsplit at h
  simp only [] at h
  split at h
  · simp at h
  · rename_i hbr
    simp only [Except.ok.injEq] at h
    subst h
    simp only
    set L := url.data.filter (fun c => !decide (isUnsafeUrlByte c)) with hL
    have hLsafe : ∀ c ∈ L, ¬ isUnsafeUrlByte c := by
      intro c hc
      have := List.of_mem_filter hc
      simpa using this
    have hL2 : ∀ c ∈ (splitScheme L).2, c ∈ L := by
      intro c hc
      rcases splitScheme_rest L with he | ⟨pre, he⟩
      · exact he ▸ hc
      · rw [he]
        simp [hc]
    refine ⟨?_, ?_, hbr, ?_, ?_⟩
    · rcases splitScheme_props L with hp | hp
      · exact Or.inl hp
      · exact Or.inr hp
    · intro c hc
      refine ⟨(splitNetloc_fst_mem c hc).1, ?_⟩
      exact hLsafe c (hL2 c (splitNetloc_fst_mem c hc).2)
    · intro c hc
      have hmem : c ∈ (splitNetloc (splitScheme L).2).2 :=
        splitFrag_fst_mem c (splitQuery_fst_mem c hc)
      refine ⟨?_, ?_, hLsafe c (hL2 c (splitNetloc_snd_mem c hmem))⟩
      · intro he
        exact (@splitFrag_eq (splitNetloc (splitScheme L).2).2).1
          (he ▸ splitQuery_fst_mem c hc)
      · intro he
        exact (@splitQuery_eq (splitFrag (splitNetloc (splitScheme L).2).2).1).1
          (he ▸ hc)
    · intro c hc
      exact hLsafe c (hL2 c (splitNetloc_snd_mem c (splitFrag_snd_mem c hc)))

/-! ## Re-parsing a rebuilt URL -/

theorem splitScheme_of_valid {s rest : List Char} {c0 : Char} {r : List Char}
    (hcons : s = c0 :: r) (halpha : isAsciiAlpha c0)
    (hsc : ∀ c ∈ s, isSchemeChar c) (hlow : pyLowerL s = s) :
    splitScheme (s ++ ':' :: rest) = (s, rest) := by
  unfold splitScheme
  rw [splitFirst_append (fun hm => isSchemeChar_not_colon (hsc ':' hm) rfl)]
  dsimp only
  rw [if_pos ⟨by rw [hcons]; simp, by rw [hcons]; simpa using halpha, hsc⟩]
  rw [hlow]

theorem takeWhile_append_stop {p : Char → Bool} {a b : List Char}
    (ha : ∀ c ∈ a, p c = true)
    (hb : b = [] ∨ ∃ c r, b = c :: r ∧ p c = false) :
    (a ++ b).takeWhile p = a ∧ (a ++ b).dropWhile p = b := by
  rw [List.takeWhile_append_of_pos ha, List.dropWhile_append_of_pos ha]
  rcases hb with hb | ⟨c, r, hb, hc⟩
  · subst hb
    simp
  · subst hb
    rw [List.takeWhile_cons_of_neg (by simp [hc]), List.dropWhile_cons_of_neg (by simp [hc])]
    simp

theorem splitNetloc_of_shape {netloc rest : List Char}
    (hnd : ∀ c ∈ netloc, ¬ isNetlocDelim c)
    (hrest : rest = [] ∨ ∃ c r, rest = c :: r ∧ isNetlocDelim c) :
    splitNetloc ('/' :: '/' :: (netloc ++ rest)) = (netloc, rest) := by
  unfold splitNetloc
  rw [if_pos (by simp)]
  have := @takeWhile_append_stop (fun c => !decide (isNetlocDelim c))
    netloc rest (fun c hc => by simp [hnd c hc])
    (by rcases hrest with h | ⟨c, r, hr, hc⟩
        · exact Or.inl h
        · exact Or.inr ⟨c, r, hr, by simp [hc]⟩)
  simp only [List.drop_succ_cons, List.drop_zero]
  rw [this.1, this.2]

theorem splitFrag_append_hash {a b : List Char} (h : '#' ∉ a) :
    splitFrag (a ++ '#' :: b) = (a, b) := by
  unfold splitFrag
  rw [splitFirst_append h]

theorem splitFrag_no_hash {a : List Char} (h : '#' ∉ a) :
    splitFrag a = (a, []) := by
  unfold splitFrag
  rw [splitFirst_no_sep h]

theorem splitQuery_append_qm {a b : List Char} (h : '?' ∉ a) :
    splitQuery (a ++ '?' :: b) = (a, b) := by
  unfold splitQuery
  rw [splitFirst_append h]

theorem splitQuery_no_qm {a : List Char} (h : '?' ∉ a) :
    splitQuery a = (a, []) := by
  unfold splitQuery
  rw [splitFirst_no_sep h]

/-- Parsing a URL rebuilt by `urlunsplit` recovers its components
(the path gains a leading `/` when it lacked one). -/
theorem urlsplit_urlunsplit (p : SplitResult)
    (hs : ∃ c0 r, p.scheme.data = c0 :: r ∧ isAsciiAlpha c0)
    (hsc : ∀ c ∈ p.scheme.data, isSchemeChar c)
    (hlow : pyLowerL p.scheme.data = p.scheme.data)
    (hn : p.netloc.data ≠ [])
    (hnd : ∀ c ∈ p.netloc.data, ¬ isNetlocDelim c ∧ ¬ isUnsafeUrlByte c)
    (hbr : ¬ (('[' ∈ p.netloc.data ∧ ']' ∉ p.netloc.data) ∨
        (']' ∈ p.netloc.data ∧ '[' ∉ p.netloc.data)))
    (hpa : ∀ c ∈ p.path.data, c ≠ '#' ∧ c ≠ '?' ∧ ¬ isUnsafeUrlByte c)
    (hq : ∀ c ∈ p.query.data, c ≠ '#' ∧ c ≠ '?' ∧ ¬ isUnsafeUrlByte c)
    (hf : ∀ c ∈ p.fragment.data, ¬ isUnsafeUrlByte c) :
    urlsplit (urlunsplit p) = .ok { p with
      path := if p.path ≠ "" ∧ p.path.data.take 1 ≠ ['/'] then "/" ++ p.path
        else p.path } := by
  obtain ⟨c0, r0, hcons, halpha⟩ := hs
  have hnS : p.netloc ≠ "" := fun he => hn (congrArg String.data he)
  have hsS : p.scheme ≠ "" := fun he => by
    have := congrArg String.data he
    rw [hcons] at this
    simp at this
  -- the adjusted path and its properties
  set PA := if p.path ≠ "" ∧ p.path.data.take 1 ≠ ['/'] then "/" ++ p.path
    else p.path with hPA
  have hPAmem : ∀ c ∈ PA.data, c ≠ '#' ∧ c ≠ '?' ∧ ¬ isUnsafeUrlByte c := by
    rw [hPA]
    split
    · intro c hc
      rw [strAppend_data] at hc
      rcases List.mem_append.mp hc with hc | hc
      · simp at hc
        subst hc
        exact ⟨by decide, by decide, by decide⟩
      · exact hpa c hc
    · exact hpa
  have hPAshape : PA.data = [] ∨ ∃ r, PA.data = '/' :: r := by
    rw [hPA]
    split
    · exact Or.inr ⟨p.path.data, rfl⟩
    · rename_i hcond
      rw [not_and_or] at hcond
      rcases hcond with hcond | hcond
      · push_neg at hcond
        exact Or.inl (congrArg String.data hcond)
      · push_neg at hcond
        rcases hd : p.path.data with _ | ⟨c1, r1⟩
        · exact Or.inl rfl
        · rw [hd] at hcond
          simp at hcond
          exact Or.inr ⟨r1, by rw [hcond]⟩
  -- the serialized url
  have hdata : (urlunsplit p).data = p.scheme.data ++ ':' :: '/' :: '/' ::
      (p.netloc.data ++ (PA.data ++
        ((if p.query = "" then [] else '?' :: p.query.data) ++
          (if p.fragment = "" then [] else '#' :: p.fragment.data)))) := by
    by_cases hq0 : p.query = "" <;> by_cases hf0 : p.fragment = "" <;>
      simp [urlunsplit, hPA, strAppend_data, hq0, hf0, hnS, hsS]
  -- nothing in the url is an unsafe byte
  have hqif : ∀ c ∈ (if p.query = "" then ([] : List Char)
      else '?' :: p.query.data), c ≠ '#' ∧ ¬ isUnsafeUrlByte c := by
    split
    · simp
    · intro c hc
      rcases List.mem_cons.mp hc with he | hm
      · exact ⟨by rw [he]; decide, by rw [he]; decide⟩
      · exact ⟨(hq c hm).1, (hq c hm).2.2⟩
  have hfif : ∀ c ∈ (if p.fragment = "" then ([] : List Char)
      else '#' :: p.fragment.data), ¬ isUnsafeUrlByte c := by
    split
    · simp
    · intro c hc
      rcases List.mem_cons.mp hc with he | hm
      · rw [he]; decide
      · exact hf c hm
  have hurlsafe : ∀ c ∈ (urlunsplit p).data, ¬ isUnsafeUrlByte c := by
    intro c hc
    rw [hdata] at hc
    rcases List.mem_append.mp hc with h | h
    · exact isSchemeChar_not_unsafe (hsc c h)
    · rcases List.mem_cons.mp h with he | h
      · rw [he]; decide
      · rcases List.mem_cons.mp h with he | h
        · rw [he]; decide
        · rcases List.mem_cons.mp h with he | h
          · rw [he]; decide
          · rcases List.mem_append.mp h with h | h
            · exact (hnd c h).2
            · rcases List.mem_append.mp h with h | h
              · exact (hPAmem c h).2.2
              · rcases List.mem_append.mp h with h | h
                · exact (hqif c h).2
                · exact hfif c h
  have hfilter : (urlunsplit p).data.filter
      (fun c => !decide (isUnsafeUrlByte c)) = (urlunsplit p).data :=
    List.filter_eq_self.mpr (fun a ha => by simp [hurlsafe a ha])
  -- shape of what follows the netloc
  have hrestshape : PA.data ++
      ((if p.query = "" then [] else '?' :: p.query.data) ++
        (if p.fragment = "" then [] else '#' :: p.fragment.data)) = [] ∨
      ∃ c r, PA.data ++
        ((if p.query = "" then [] else '?' :: p.query.data) ++
          (if p.fragment = "" then [] else '#' :: p.fragment.data)) = c :: r ∧
        isNetlocDelim c := by
    rcases hPAshape with hp0 | ⟨r, hp0⟩
    · rw [hp0, List.nil_append]
      by_cases hq0 : p.query = ""
      · rw [if_pos hq0, List.nil_append]
        by_cases hf0 : p.fragment = ""
        · rw [if_pos hf0]
          exact Or.inl rfl
        · rw [if_neg hf0]
          exact Or.inr ⟨'#', p.fragment.data, rfl, Or.inr (Or.inr rfl)⟩
      · rw [if_neg hq0]
        exact Or.inr ⟨'?', _, rfl, Or.inr (Or.inl rfl)⟩
    · rw [hp0]
      exact Or.inr ⟨'/', _, rfl, Or.inl rfl⟩
  -- run the parser
  unfold urlsplit
  simp only []
  rw [hfilter, hdata]
  rw [splitScheme_of_valid hcons halpha hsc hlow]
  simp only []
  rw [splitNetloc_of_shape (fun c hc => (hnd c hc).1) hrestshape]
  simp only []
  rw [if_neg hbr]
  have hPAnq : '?' ∉ PA.data := fun hm => (hPAmem '?' hm).2.1 rfl
  have hPAnh : '#' ∉ PA.data := fun hm => (hPAmem '#' hm).1 rfl
  by_cases hf0 : p.fragment = ""
  · rw [if_pos hf0]
    rw [List.append_nil]
    by_cases hq0 : p.query = ""
    · rw [if_pos hq0, List.append_nil]
      rw [splitFrag_no_hash hPAnh]
      simp only []
      rw [splitQuery_no_qm hPAnq]
      rw [hq0, hf0]
    · rw [if_neg hq0]
      rw [splitFrag_no_hash (by
        intro hm
        rcases List.mem_append.mp hm with h | h
        · exact hPAnh h
        · rcases List.mem_cons.mp h with he | h
          · exact absurd he.symm (by decide)
          · exact (hq '#' h).1 rfl)]
      simp only []
      rw [splitQuery_append_qm hPAnq]
      rw [hf0]
  · rw [if_neg hf0]
    by_cases hq0 : p.query = ""
    · rw [if_pos hq0, List.nil_append]
      rw [splitFrag_append_hash hPAnh]
      simp only []
      rw [splitQuery_no_qm hPAnq]
      rw [hq0]
    · rw [if_neg hq0]
      rw [← List.append_assoc]
      rw [splitFrag_append_hash (by
        intro hm
        rcases List.mem_append.mp hm with h | h
        · exact hPAnh h
        · rcases List.mem_cons.mp h with he | h
          · exact absurd he.symm (by decide)
          · exact (hq '#' h).1 rfl)]
      simp only []
      rw [splitQuery_append_qm hPAnq]

/-! ## `build_utm_url` characterisation -/

theorem build_ok_inv {base : String} {pairs : List (String × String)}
    {fl : Bool} {sm : SpaceMode} {me oe : Bool} {url : String}
    (h : build_utm_url base pairs fl sm me oe = .ok url) :
    base ≠ "" ∧ ∃ p, urlsplit (inferScheme base) = .ok p ∧ p.netloc ≠ "" ∧
      url = urlunsplit { p with
        query := urlencode (finalParams pairs fl sm me oe p.query) } := by
  unfold build_utm_url at h
  split at h
  · simp at h
  · rename_i hb
    unfold buildCore at h
    split at h
    · simp at h
    · rename_i p hp
      split at h
      · simp at h
      · rename_i hn
        simp only [Except.ok.injEq] at h
        exact ⟨hb, p, hp, hn, h.symm⟩

theorem buildCore_ok {url : String} {pairs : List (String × String)}
    {fl : Bool} {sm : SpaceMode} {me oe : Bool} {p : SplitResult}
    (hp : urlsplit url = .ok p) (hn : p.netloc ≠ "") :
    buildCore url pairs fl sm me oe = .ok (urlunsplit { p with
      query := urlencode (finalParams pairs fl sm me oe p.query) }) := by
  unfold buildCore
  rw [hp]
  simp only []
  rw [if_neg hn]

theorem build_eq_buildCore {base : String} {pairs : List (String × String)}
    {fl : Bool} {sm : SpaceMode} {me oe : Bool} (hb : base ≠ "") :
    build_utm_url base pairs fl sm me oe =
      buildCore (inferScheme base) pairs fl sm me oe := by
  unfold build_utm_url
  rw [if_neg hb]

/-- The serialized form of a rebuilt URL with scheme and netloc. -/
theorem urlunsplit_data (p : SplitResult) (hn : p.netloc ≠ "")
    (hs : p.scheme ≠ "") :
    (urlunsplit p).data = p.scheme.data ++ ':' :: '/' :: '/' ::
      (p.netloc.data ++
        ((if p.path ≠ "" ∧ p.path.data.take 1 ≠ ['/'] then "/" ++ p.path
          else p.path).data ++
          ((if p.query = "" then [] else '?' :: p.query.data) ++
            (if p.fragment = "" then [] else '#' :: p.fragment.data)))) := by
  by_cases hq0 : p.query = "" <;> by_cases hf0 : p.fragment = "" <;>
    simp [urlunsplit, strAppend_data, hq0, hf0, hn, hs]

theorem adjust_shape (s : String) :
    (if s ≠ "" ∧ s.data.take 1 ≠ ['/'] then "/" ++ s else s).data = [] ∨
      ∃ r, (if s ≠ "" ∧ s.data.take 1 ≠ ['/'] then "/" ++ s else s).data
        = '/' :: r := by
  split
  · exact Or.inr ⟨s.data, rfl⟩
  · rename_i hcond
    rw [not_and_or] at hcond
    rcases hcond with hcond | hcond
    · push_neg at hcond
      exact Or.inl (congrArg String.data hcond)
    · push_neg at hcond
      rcases hd : s.data with _ | ⟨c1, r1⟩
      · exact Or.inl rfl
      · rw [hd] at hcond
        simp at hcond
        exact Or.inr ⟨r1, by rw [hcond]⟩

theorem adjust_idem (s : String) :
    (if (if s ≠ "" ∧ s.data.take 1 ≠ ['/'] then "/" ++ s else s) ≠ "" ∧
        (if s ≠ "" ∧ s.data.take 1 ≠ ['/'] then "/" ++ s
          else s).data.take 1 ≠ ['/'] then
      "/" ++ (if s ≠ "" ∧ s.data.take 1 ≠ ['/'] then "/" ++ s else s)
    else (if s ≠ "" ∧ s.data.take 1 ≠ ['/'] then "/" ++ s else s)) =
      (if s ≠ "" ∧ s.data.take 1 ≠ ['/'] then "/" ++ s else s) := by
  rcases adjust_shape s with h | ⟨r, h⟩
  · rw [if_neg]
    rintro ⟨h1, _⟩
    exact h1 (congrArg String.mk h)
  · rw [if_neg]
    rintro ⟨_, h2⟩
    rw [h] at h2
    simp at h2

theorem urlunsplit_adjust (p : SplitResult) (hn : p.netloc ≠ "") :
    urlunsplit { p with
      path := if p.path ≠ "" ∧ p.path.data.take 1 ≠ ['/'] then "/" ++ p.path
        else p.path } = urlunsplit p := by
  unfold urlunsplit
  simp only []
  rw [if_pos (Or.inl hn), if_pos (Or.inl hn)]
  rw [adjust_idem]

theorem mem_joinSepL {sep : Char} {L : List (List Char)} {c : Char}
    (h : c ∈ joinSepL sep L) : c = sep ∨ ∃ seg ∈ L, c ∈ seg := by
  induction L with
  | nil => simp [joinSepL] at h
  | cons x rest ih =>
    cases rest with
    | nil =>
      exact Or.inr ⟨x, by simp, h⟩
    | cons y t =>
      rw [joinSepL] at h
      rcases List.mem_append.mp h with h2 | h2
      · exact Or.inr ⟨x, by simp, h2⟩
      · rcases List.mem_cons.mp h2 with he | h3
        · exact Or.inl he
        · rcases ih h3 with he | ⟨seg, hseg, hcm⟩
          · exact Or.inl he
          · exact Or.inr ⟨seg, by simp [hseg], hcm⟩

/-- Every character of an `urlencode` output is ASCII and none of
`# ? space` tab/CR/LF. -/
theorem mem_urlencode_good (d : PyDict) :
    ∀ c ∈ (urlencode d).data, c ≠ '#' ∧ c ≠ '?' ∧ ¬ isUnsafeUrlByte c := by
  intro c hc
  unfold urlencode at hc
  simp only at hc
  rcases mem_joinSepL hc with he | ⟨seg, hseg, hcm⟩
  · subst he
    exact ⟨by decide, by decide, by decide⟩
  · simp only [List.mem_map] at hseg
    obtain ⟨kv, _, hsege⟩ := hseg
    subst hsege
    rcases List.mem_append.mp hcm with h | h
    · have := mem_quote_plus_good kv.1 c h
      exact ⟨this.2.2.2.1, this.2.2.2.2.1, this.2.2.2.2.2.2⟩
    · rcases List.mem_cons.mp h with he | h
      · subst he
        exact ⟨by decide, by decide, by decide⟩
      · have := mem_quote_plus_good kv.2 c h
        exact ⟨this.2.2.2.1, this.2.2.2.2.1, this.2.2.2.2.2.2⟩

theorem containsSeq_of_append (pat a b : List Char) (hne : pat ≠ []) :
    containsSeq pat (a ++ pat ++ b) = true := by
  induction a with
  | nil =>
    rcases pat with _ | ⟨p0, pr⟩
    · exact absurd rfl hne
    · rw [List.nil_append, List.cons_append, containsSeq]
      have : (p0 :: pr).isPrefixOf (p0 :: pr ++ b) = true := by
        rw [List.isPrefixOf_iff_prefix]
        exact ⟨b, by simp⟩
      rw [List.cons_append] at this
      simp [this]
  | cons x a2 ih =>
    rw [List.cons_append, List.cons_append, containsSeq]
    simp only [List.append_assoc] at ih ⊢
    simp [ih]

/-- The re-merge core: feeding a successfully built URL (whose base
parsed with a nonempty scheme) back into the builder with no new pairs
and `merge_existing=True` returns it unchanged. -/
theorem remerge_id {base : String} {pairs : List (String × String)}
    {fl : Bool} {sm : SpaceMode} {me oe2 : Bool} {p : SplitResult}
    {url1 : String}
    (hp : urlsplit (inferScheme base) = .ok p)
    (hs : p.scheme ≠ "")
    (h1 : build_utm_url base pairs fl sm me true = .ok url1) :
    build_utm_url url1 [] fl sm true oe2 = .ok url1 := by
  obtain ⟨hb, p', hp', hn', hurl⟩ := build_ok_inv h1
  rw [hp] at hp'
  simp only [Except.ok.injEq] at hp'
  subst hp'
  have hprops := urlsplit_ok_props hp
  have hgood : (∃ c r, p.scheme.data = c :: r ∧ isAsciiAlpha c) ∧
      (∀ c ∈ p.scheme.data, isSchemeChar c) ∧
      pyLowerL p.scheme.data = p.scheme.data := by
    rcases hprops.1 with h0 | h0
    · exact absurd (congrArg String.mk h0) hs
    · exact h0
  obtain ⟨⟨c0, r0, hcons, halpha⟩, hsc, hlow⟩ := hgood
  set F := finalParams pairs fl sm me true p.query with hF
  set q1 := urlencode F with hq1
  set p1 : SplitResult := { p with query := q1 } with hp1
  have hn1 : p1.netloc ≠ "" := hn'
  have hn1d : p1.netloc.data ≠ [] := fun he => hn' (congrArg String.mk he)
  have hreparse := urlsplit_urlunsplit p1 ⟨c0, r0, hcons, halpha⟩ hsc hlow
    hn1d hprops.2.1 hprops.2.2.1 hprops.2.2.2.1
    (fun c hc => mem_urlencode_good F c hc) hprops.2.2.2.2
  have hurl1 : url1 = urlunsplit p1 := hurl
  have hd1 := urlunsplit_data p1 hn1 hs
  have hne1 : url1 ≠ "" := by
    intro he
    have := congrArg String.data (hurl1.symm.trans he)
    rw [hd1] at this
    rw [show p1.scheme = p.scheme from rfl, hcons] at this
    simp at this
  have hsep : hasSchemeSep url1 = true := by
    unfold hasSchemeSep
    rw [hurl1]
    have : (urlunsplit p1).data = p1.scheme.data ++ ':' :: '/' :: '/' ::
        (p1.netloc.data ++ _) := hd1
    rw [hd1]
    have h3 : p1.scheme.data ++ ':' :: '/' :: '/' ::
        (p1.netloc.data ++
          ((if p1.path ≠ "" ∧ p1.path.data.take 1 ≠ ['/'] then "/" ++ p1.path
            else p1.path).data ++
            ((if p1.query = "" then [] else '?' :: p1.query.data) ++
              (if p1.fragment = "" then [] else '#' :: p1.fragment.data)))) =
        p1.scheme.data ++ "://".data ++
          (p1.netloc.data ++
            ((if p1.path ≠ "" ∧ p1.path.data.take 1 ≠ ['/'] then "/" ++ p1.path
              else p1.path).data ++
              ((if p1.query = "" then [] else '?' :: p1.query.data) ++
                (if p1.fragment = "" then [] else '#' :: p1.fragment.data)))) := by
      simp
    rw [h3]
    exact containsSeq_of_append _ _ _ (by simp)
  rw [build_eq_buildCore hne1]
  have hinfer : inferScheme url1 = url1 := by
    unfold inferScheme
    simp [hsep]
  rw [hinfer, hurl1]
  rw [buildCore_ok hreparse hn1]
  congr 1
  have hEq2 : existingParams true q1 = F := by
    by_cases hF0 : F = []
    · rw [hF0] at hq1
      have : q1 = "" := hq1.trans (urlencode_eq_empty.mpr rfl)
      rw [this, hF0]
      unfold existingParams
      rw [if_neg (by simp)]
    · have hq1ne : q1 ≠ "" := fun he => hF0 (urlencode_eq_empty.mp (hq1 ▸ he))
      unfold existingParams
      rw [if_pos ⟨rfl, hq1ne⟩]
      rw [hq1, parse_qsl_urlencode]
      apply foldl_dictInsert_of_nodup
      rw [hF]
      unfold finalParams
      exact dictUpdate_nodup _ _ (existingParams_nodup me p.query)
  have hfinal2 : finalParams [] fl sm true oe2 q1 = F := by
    unfold finalParams
    simp only [utmParams, List.foldl_nil]
    rw [dictUpdate_nil]
    exact hEq2
  show urlunsplit ⟨p1.scheme, p1.netloc,
    (if p1.path ≠ "" ∧ p1.path.data.take 1 ≠ ['/'] then "/" ++ p1.path
      else p1.path),
    urlencode (finalParams [] fl sm true oe2 q1), p1.fragment⟩ = urlunsplit p1
  rw [hfinal2, ← hq1]
  exact urlunsplit_adjust p1 hn1

/-! # Claim theorems -/

/-- Claim C1 (amended): whenever a nonempty base URL, after scheme
inference, parses with an empty authority, the builder fails with
`InvalidBaseURLError`.  (The claim's particular input `"utm_source=foo"`
does not have an empty authority and in fact succeeds; see the
counterexample.) -/
theorem utm_C1 (base : String) (p : SplitResult)
    (pairs : List (String × String)) (fl : Bool) (sm : SpaceMode)
    (me oe : Bool) (hb : base ≠ "")
    (hp : urlsplit (inferScheme base) = .ok p) (hn : p.netloc = "") :
    build_utm_url base pairs fl sm me oe = .error .InvalidBaseURLError := by
  rw [build_eq_buildCore hb]
  unfold buildCore
  rw [hp]
  simp only []
  rw [if_pos hn]

/-- Witness for C1: the base `"https://"` keeps its scheme, parses with an
empty authority, and is rejected. -/
theorem utm_C1_witness :
    build_utm_url "https://" [] false .underscore true true
      = .error .InvalidBaseURLError :=
  utm_C1 "https://" ⟨"https", "", "", "", ""⟩ [] false .underscore true true
    (by decide) (by decide) rfl

/-- Counterexample for C1's particular input: `"utm_source=foo"` is
scheme-augmented to `"https://utm_source=foo"`, whose authority is the
nonempty `"utm_source=foo"`, so the build succeeds instead of failing
with `InvalidBaseURLError`. -/
theorem utm_C1_cex :
    build_utm_url "utm_source=foo" [] false .underscore true true
        = .ok "https://utm_source=foo" ∧
      build_utm_url "utm_source=foo" [] false .underscore true true
        ≠ .error .InvalidBaseURLError := by
  decide

/-- The core never reports an empty base: that error is issued only by
the outer emptiness test. -/
theorem buildCore_ne_empty (url : String) (pairs : List (String × String))
    (fl : Bool) (sm : SpaceMode) (me oe : Bool) :
    buildCore url pairs fl sm me oe ≠ .error .EmptyBaseURLError := by
  unfold buildCore
  cases urlsplit url with
  | error e => simp
  | ok p =>
    simp only []
    split
    · simp
    · simp

/-- Claim C2 (amended): the builder fails with `EmptyBaseURLError`
exactly when the base URL is the empty string.  (A whitespace-only base
such as `" "` is truthy in Python and is not rejected; see the
counterexample.) -/
theorem utm_C2 (base : String) (pairs : List (String × String)) (fl : Bool)
    (sm : SpaceMode) (me oe : Bool) :
    build_utm_url base pairs fl sm me oe = .error .EmptyBaseURLError ↔
      base = "" := by
  constructor
  · intro h
    by_contra hb
    rw [build_eq_buildCore hb] at h
    exact buildCore_ne_empty _ _ _ _ _ _ h
  · intro h
    rw [h]
    rfl

/-- Counterexample for C2: the whitespace-only base `" "` is not
rejected; it builds `"https:// "` (the space becomes the authority). -/
theorem utm_C2_cex :
    build_utm_url " " [] false .underscore true true = .ok "https:// " ∧
      build_utm_url " " [] false .underscore true true
        ≠ .error .EmptyBaseURLError := by
  decide

/-- Claim C3 (amended): in a successful build, every merged parameter
whose value trims to the empty string comes from the base URL's existing
query, never from the supplied pairs (whose normalized values are
nonempty and start and end with non-whitespace).  Existing parameters
with blank values are preserved, contrary to the claim; see the
counterexample. -/
theorem utm_C3 {base : String} {pairs : List (String × String)} {fl : Bool}
    {sm : SpaceMode} {me oe : Bool} {url : String}
    (h : build_utm_url base pairs fl sm me oe = .ok url) :
    ∃ p, urlsplit (inferScheme base) = .ok p ∧
      url = urlunsplit { p with
        query := urlencode (finalParams pairs fl sm me oe p.query) } ∧
      ∀ kv ∈ finalParams pairs fl sm me oe p.query, pyStrip kv.2 = "" →
        kv ∈ existingParams me p.query := by
  obtain ⟨hb, p, hp, hn, hurl⟩ := build_ok_inv h
  refine ⟨p, hp, hurl, ?_⟩
  intro kv hkv hstrip
  have hkv2 : kv ∈ dictUpdate (existingParams me p.query)
      (utmParams pairs fl sm oe (existingParams me p.query)) := hkv
  rcases mem_dictUpdate hkv2 with hm | hm
  · obtain ⟨q, hq, h1, h2, hne1, hne2⟩ := utmParams_mem _ _ _ _ _ kv hm
    rw [h2] at hstrip
    exact absurd hstrip (transformStr_strip_ne (h2 ▸ hne2))
  · exact hm

/-- Witness for C3: base query `a=` survives, the supplied pair
`("b", " ")` normalizes to a blank value and is dropped, and every
blank-valued output parameter indeed comes from the existing query. -/
theorem utm_C3_witness :
    ∃ p, urlsplit (inferScheme "https://example.com/?a=") = .ok p ∧
      "https://example.com/?a=" = urlunsplit { p with
        query := urlencode (finalParams [("b", " ")] false .underscore true
          true p.query) } ∧
      ∀ kv ∈ finalParams [("b", " ")] false .underscore true true p.query,
        pyStrip kv.2 = "" → kv ∈ existingParams true p.query :=
  utm_C3 (by decide)

/-- Counterexample for C3: a successful build whose output query string
contains the parameter `a` with the (trivially blank) empty value,
inherited from the base URL's query. -/
theorem utm_C3_cex :
    build_utm_url "https://example.com/?a=" [] false .underscore true true
        = .ok "https://example.com/?a=" ∧
      ("a", "") ∈ parse_qsl "a=" ∧ pyStrip "" = "" := by
  decide

/-- Claim C4 (confirmed): with existing query `a=1` and a candidate pair
normalizing to `("a", "2")`, `override_existing = true` yields `a=2` in
the output and `override_existing = false` keeps `a=1`. -/
theorem utm_C4 (k v : String) (fl : Bool) (sm : SpaceMode)
    (hnorm : normalize_pair (some k) (some v) fl sm = (some "a", some "2")) :
    build_utm_url "https://example.com/?a=1" [(k, v)] fl sm true true
        = .ok "https://example.com/?a=2" ∧
      build_utm_url "https://example.com/?a=1" [(k, v)] fl sm true false
        = .ok "https://example.com/?a=1" := by
  have hk : transformStr fl sm k = "a" := by
    have h1 := congrArg Prod.fst hnorm
    simp only [normalize_pair, pyTransform, Option.some.injEq] at h1
    exact h1
  have hv2 : transformStr fl sm v = "2" := by
    have h1 := congrArg Prod.snd hnorm
    simp only [normalize_pair, pyTransform, Option.some.injEq] at h1
    exact h1
  have hv : v ≠ "" := by
    intro he
    rw [he] at hv2
    revert hv2
    cases fl <;> cases sm <;> decide
  have hb1 : ("https://example.com/?a=1" : String) ≠ "" := by decide
  have hp1 : urlsplit (inferScheme "https://example.com/?a=1")
      = .ok ⟨"https", "example.com", "/", "a=1", ""⟩ := by decide
  have hstep_t : utmStep fl sm true [("a", "1")] [] (k, v) = [("a", "2")] := by
    unfold utmStep
    dsimp only
    rw [if_neg hv, hnorm]
    dsimp only
    rw [if_neg (by decide), if_pos (Or.inl rfl)]
    rfl
  have hstep_f : utmStep fl sm false [("a", "1")] [] (k, v) = [] := by
    unfold utmStep
    dsimp only
    rw [if_neg hv, hnorm]
    dsimp only
    rw [if_neg (by decide), if_neg (by decide)]
  have hex : existingParams true "a=1" = [("a", "1")] := by decide
  constructor
  · rw [build_eq_buildCore hb1, buildCore_ok hp1 (by decide)]
    have hfin : finalParams [(k, v)] fl sm true true "a=1" = [("a", "2")] := by
      unfold finalParams
      dsimp only
      rw [hex]
      rw [show utmParams [(k, v)] fl sm true [("a", "1")]
          = utmStep fl sm true [("a", "1")] [] (k, v) from rfl]
      rw [hstep_t]
      decide
    dsimp only
    rw [hfin]
    decide
  · rw [build_eq_buildCore hb1, buildCore_ok hp1 (by decide)]
    have hfin : finalParams [(k, v)] fl sm true false "a=1" = [("a", "1")] := by
      unfold finalParams
      dsimp only
      rw [hex]
      rw [show utmParams [(k, v)] fl sm false [("a", "1")]
          = utmStep fl sm false [("a", "1")] [] (k, v) from rfl]
      rw [hstep_f]
      decide
    dsimp only
    rw [hfin]
    decide

/-- Witness for C4 at the literal candidate `("a", "2")` with no
normalization in play. -/
theorem utm_C4_witness :
    build_utm_url "https://example.com/?a=1" [("a", "2")] false .underscore
        true true = .ok "https://example.com/?a=2" ∧
      build_utm_url "https://example.com/?a=1" [("a", "2")] false .underscore
        true false = .ok "https://example.com/?a=1" :=
  utm_C4 "a" "2" false .underscore (by decide)

/-- Claim C5 (amended): the merged mapping's key order is: existing keys
first, in their original query order — an overridden key keeps its
existing position and merely changes value — followed by the genuinely
new keys in the order the candidate pairs were supplied.  (The claim's
placement of overridden parameters after the kept existing ones is
refuted by the counterexample.) -/
theorem utm_C5 {base : String} {pairs : List (String × String)} {fl : Bool}
    {sm : SpaceMode} {me oe : Bool} {url : String}
    (h : build_utm_url base pairs fl sm me oe = .ok url) :
    ∃ p, urlsplit (inferScheme base) = .ok p ∧
      url = urlunsplit { p with
        query := urlencode (finalParams pairs fl sm me oe p.query) } ∧
      (finalParams pairs fl sm me oe p.query).map Prod.fst =
        (existingParams me p.query).map Prod.fst ++
          ((utmParams pairs fl sm oe (existingParams me p.query)).map
            Prod.fst).filter
            (fun x => ! dictContains (existingParams me p.query) x) := by
  obtain ⟨hb, p, hp, hn, hurl⟩ := build_ok_inv h
  exact ⟨p, hp, hurl,
    keys_dictUpdate (utmParams pairs fl sm oe (existingParams me p.query))
      (existingParams me p.query)
      (utmParams_nodup pairs fl sm oe (existingParams me p.query))⟩

/-- Witness for C5: existing `a=1&b=2` with candidates
`[("a", "9"), ("c", "3")]` — the overridden `a` stays first, the fresh
`c` is appended. -/
theorem utm_C5_witness :
    ∃ p, urlsplit (inferScheme "https://example.com/?a=1&b=2") = .ok p ∧
      "https://example.com/?a=9&b=2&c=3" = urlunsplit { p with
        query := urlencode (finalParams [("a", "9"), ("c", "3")] false
          .underscore true true p.query) } ∧
      (finalParams [("a", "9"), ("c", "3")] false .underscore true true
          p.query).map Prod.fst =
        (existingParams true p.query).map Prod.fst ++
          ((utmParams [("a", "9"), ("c", "3")] false .underscore true
            (existingParams true p.query)).map Prod.fst).filter
            (fun x => ! dictContains (existingParams true p.query) x) :=
  utm_C5 (by decide)

/-- Counterexample for C5: overriding `a` in `a=1&b=2` keeps `a` in its
original first position (`a=9&b=2`), not after the kept parameters
(`b=2&a=9`) as the claim orders them. -/
theorem utm_C5_cex :
    build_utm_url "https://example.com/?a=1&b=2" [("a", "9")] false
        .underscore true true = .ok "https://example.com/?a=9&b=2" ∧
      build_utm_url "https://example.com/?a=1&b=2" [("a", "9")] false
        .underscore true true ≠ .ok "https://example.com/?b=2&a=9" := by
  decide

/-- Claim C6 (amended): the idempotent re-merge holds for every base URL
whose scheme-augmented form parses with a nonempty scheme (in particular
every base the scheme-inference step touched): feeding the built URL
back in with no new pairs and `merge_existing = true` returns it
unchanged.  (A scheme-less base whose query percent-encodes into the
rebuilt URL can make the re-parse fail; see the counterexample.) -/
theorem utm_C6 {base : String} {pairs : List (String × String)}
    {fl : Bool} {sm : SpaceMode} {me oe2 : Bool} {p : SplitResult}
    {url1 : String}
    (hp : urlsplit (inferScheme base) = .ok p)
    (hs : p.scheme ≠ "")
    (h1 : build_utm_url base pairs fl sm me true = .ok url1) :
    build_utm_url url1 [] fl sm true oe2 = .ok url1 :=
  remerge_id hp hs h1

/-- Witness for C6: building from `"example.com"` and re-merging the
result is the identity. -/
theorem utm_C6_witness :
    build_utm_url "https://example.com?a=b" [] false .underscore true false
      = .ok "https://example.com?a=b" :=
  @utm_C6 "example.com" [("a", "b")] false .underscore true false
    ⟨"https", "example.com", "", "", ""⟩ "https://example.com?a=b"
    (by decide) (by decide) (by decide)

/-- Counterexample for C6: the scheme-less base `"//host?p://"` (it
contains `"://"`, so nothing is prepended) builds successfully, but its
query is re-encoded to `p%3A%2F%2F=`; the rebuilt URL no longer contains
`"://"`, gets `"https://"` prepended on re-merge, then parses with an
empty authority and is rejected — not a no-op. -/
theorem utm_C6_cex :
    build_utm_url "//host?p://" [] false .underscore true true
        = .ok "//host?p%3A%2F%2F=" ∧
      build_utm_url "//host?p%3A%2F%2F=" [] false .underscore true true
        = .error .InvalidBaseURLError := by
  decide

/-- Claim C7 (amended): normalization trims, then lowercases when
`force_lower` is set, then substitutes spaces per `space_mode`, applied
to the key and to the value alike, with `None` propagated; hence the
space-mode substitution also reaches the key: `("UTM Source",
"Paid Search")` with `force_lower = true` maps to `("utm_source",
"paid_search")` under `underscore`, to `("utm-source", "paid-search")`
under `dash` (not the claimed `("utm_source", "paid-search")`), and to
`("utm source", "paid search")` under `keep` (not the claimed
`("utm_source", "paid search")`). -/
theorem utm_C7 :
    normalize_pair (some "UTM Source") (some "Paid Search") true .underscore
        = (some "utm_source", some "paid_search") ∧
      normalize_pair (some "UTM Source") (some "Paid Search") true .dash
        = (some "utm-source", some "paid-search") ∧
      normalize_pair (some "UTM Source") (some "Paid Search") true .keep
        = (some "utm source", some "paid search") ∧
      (∀ (k : Option String) (fl : Bool) (sm : SpaceMode),
        normalize_pair k none fl sm = (pyTransform fl sm k, none)) ∧
      (∀ (s : String) (fl : Bool),
        transformStr fl .underscore s = ⟨pyReplaceCharL ' ' '_'
            ((if fl then pyLowerL else fun l => l) (pyStripL s.data))⟩ ∧
          transformStr fl .dash s = ⟨pyReplaceCharL ' ' '-'
            ((if fl then pyLowerL else fun l => l) (pyStripL s.data))⟩ ∧
          transformStr fl .keep s = ⟨(if fl then pyLowerL else fun l => l)
            (pyStripL s.data)⟩) := by
  refine ⟨by decide, by decide, by decide, fun k fl sm => rfl, fun s fl => ?_⟩
  cases fl
  · exact ⟨rfl, rfl, rfl⟩
  · exact ⟨rfl, rfl, rfl⟩

/-- Counterexample for C7: under `dash` and `keep` the key is also
space-substituted, so the claimed outputs `("utm_source", "paid-search")`
and `("utm_source", "paid search")` are wrong. -/
theorem utm_C7_cex :
    normalize_pair (some "UTM Source") (some "Paid Search") true .dash
        ≠ (some "utm_source", some "paid-search") ∧
      normalize_pair (some "UTM Source") (some "Paid Search") true .keep
        ≠ (some "utm_source", some "paid search") := by
  decide

/-- Claim C8 (confirmed): a base without `"://"` has `"https://"`
prepended before parsing, and the spec's concrete example builds exactly
the stated URL. -/
theorem utm_C8 :
    (∀ (base : String) (pairs : List (String × String)) (fl : Bool)
      (sm : SpaceMode) (me oe : Bool), base ≠ "" → hasSchemeSep base = false →
      build_utm_url base pairs fl sm me oe =
        buildCore ("https://" ++ base) pairs fl sm me oe) ∧
    build_utm_url "example.com/page"
        [("utm_source", "x"), ("utm_medium", "y"), ("utm_campaign", "z")]
        false .underscore true true
      = .ok
        "https://example.com/page?utm_source=x&utm_medium=y&utm_campaign=z" := by
  constructor
  · intro base pairs fl sm me oe hb hss
    rw [build_eq_buildCore hb]
    unfold inferScheme
    rw [if_neg (by simp [hss])]
  · decide

/-- Witness for C8: `"example.com"` lacks `"://"`, so building from it
is building from `"https://" ++ "example.com"`. -/
theorem utm_C8_witness :
    build_utm_url "example.com" [] false .underscore true true
      = buildCore ("https://" ++ "example.com") [] false .underscore true
        true :=
  utm_C8.1 "example.com" [] false .underscore true true (by decide)
    (by decide)

/-- Claim C9 (amended): with `merge_existing = false` the original query
is discarded, so the output lacks the key `existing` provided no
supplied pair itself normalizes to that key; a pair normalizing to
`existing` reintroduces it (see the counterexample). -/
theorem utm_C9 {base : String} {pairs : List (String × String)} {fl : Bool}
    {sm : SpaceMode} {oe : Bool} {url : String}
    (h : build_utm_url base pairs fl sm false oe = .ok url)
    (hk : ∀ kv ∈ pairs, transformStr fl sm kv.1 ≠ "existing") :
    ∃ p, urlsplit (inferScheme base) = .ok p ∧
      url = urlunsplit { p with
        query := urlencode (finalParams pairs fl sm false oe p.query) } ∧
      dictContains (finalParams pairs fl sm false oe p.query) "existing"
        = false := by
  obtain ⟨hb, p, hp, hn, hurl⟩ := build_ok_inv h
  refine ⟨p, hp, hurl, ?_⟩
  rw [Bool.eq_false_iff]
  intro hc
  rw [dictContains_iff] at hc
  obtain ⟨kv, hkv, hkve⟩ := List.mem_map.mp hc
  have hkv2 : kv ∈ dictUpdate (existingParams false p.query)
      (utmParams pairs fl sm oe (existingParams false p.query)) := hkv
  rcases mem_dictUpdate hkv2 with hm | hm
  · obtain ⟨q, hq, h1, h2, hne1, hne2⟩ := utmParams_mem _ _ _ _ _ kv hm
    exact hk q hq (h1.symm.trans hkve)
  · rw [existingParams_false] at hm
    simp at hm

/-- Witness for C9: `merge_existing = false` drops `existing=1`, and the
pair `("a", "b")` does not reintroduce the key. -/
theorem utm_C9_witness :
    ∃ p, urlsplit (inferScheme "https://example.com/?existing=1") = .ok p ∧
      "https://example.com/?a=b" = urlunsplit { p with
        query := urlencode (finalParams [("a", "b")] false .underscore false
          true p.query) } ∧
      dictContains (finalParams [("a", "b")] false .underscore false true
        p.query) "existing" = false :=
  utm_C9 (by decide) (by decide)

/-- Counterexample for C9: with `merge_existing = false` a supplied pair
keyed `existing` still lands in the output query, so the output is not
free of the key `existing` for every pairs set. -/
theorem utm_C9_cex :
    build_utm_url "https://example.com/?existing=1" [("existing", "2")]
        false .underscore false true
      = .ok "https://example.com/?existing=2" := by
  decide

/-- Claim C10 (confirmed): with `merge_existing = true`, kept existing
parameters are decoded and re-encoded, canonicalizing their text:
`q=a%20b` comes out as `q=a+b` for every configuration, even with no
supplied pairs. -/
theorem utm_C10 (fl : Bool) (sm : SpaceMode) (oe : Bool) :
    build_utm_url "https://example.com/?q=a%20b" [] fl sm true oe
      = .ok "https://example.com/?q=a+b" := by
  cases fl <;> cases sm <;> cases oe <;> decide
